import Mathlib

/-!
# gouant: Black-Scholes pricing, implied volatility and Greeks

A shallow embedding of `common.go` and `black_scholes.go`.

The Go functions compute over `float64` and call Go's `math` package.  Here
every function of the repository is a computable definition over a carrier
`α` with the arithmetic operations and the order, parameterised by a record
`GoMath α` holding the `math` functions it calls.  Two instances are used.

* `realMath`, over the real numbers, with the real functions: the program in
  exact real arithmetic.  Where Go yields a NaN or an infinity (a division by
  zero, the logarithm or the square root of a negative number) the real
  functions take conventional values that the program never sees; the
  statements over `realMath` therefore assume `S, K, T > 0` and `sigma ≠ 0`
  wherever `d1` is involved.
* `floatMath`, over `F64`, a real number, an infinity or NaN: float64 values
  with rounding left aside, where `math.Erfc` and `math.Exp` return exactly 0
  in the far tail as they do in Go, and NaN and the infinities propagate.  It
  decides the statements that fail on the program because `CND` or `PD`
  saturates or because `d1` is `0 / 0`.

The facts about the normal law, about the pricer, about the solver on one
contract and about the program over float64 values are gathered in four
lemmas, `normal_law`, `pricer_law`, `deepCall_law` and `float_law`: each is a
conjunction, proved one fact after the other, and the theorems of the claims
take from them the facts they need.
-/

namespace Gouant

open MeasureTheory Set

/-! ## The `math` package -/

/-- The functions and constants of Go's `math` package that the program calls. -/
structure GoMath (α : Type) where
  /-- The function `math.Exp`. -/
  Exp : α → α
  /-- The function `math.Log`. -/
  Log : α → α
  /-- The function `math.Sqrt`. -/
  Sqrt : α → α
  /-- The function `math.Pow`. -/
  Pow : α → α → α
  /-- The function `math.Abs`. -/
  Abs : α → α
  /-- The function `math.Erfc`. -/
  Erfc : α → α
  /-- The constant `math.Pi`. -/
  Pi : α
  /-- The constant `math.Sqrt2`. -/
  Sqrt2 : α

/-- The complementary error function `erfc x = 2/√π · ∫ₓ^∞ exp (-t²) dt`, the
function that `math.Erfc` of Go's standard library computes. -/
noncomputable def Erfc (x : ℝ) : ℝ :=
  2 / Real.sqrt Real.pi * ∫ t in Ioi x, Real.exp (-t ^ 2)

/-- The `math` package over the real numbers: every function is the exact real
function that Go's approximates. There is no rounding, no underflow and no
NaN; `floatMath` models the latter two. -/
@[reducible] noncomputable def realMath : GoMath ℝ where
  Exp := Real.exp
  Log := Real.log
  Sqrt := Real.sqrt
  Pow := fun x y => x ^ y
  Abs := fun x => |x|
  Erfc := Erfc
  Pi := Real.pi
  Sqrt2 := Real.sqrt 2

/-! ## common.go -/

/-- The struct `Greeks`. -/
structure Greeks (α : Type) where
  Delta : α
  Gamma : α
  Theta : α
  Rho : α
  Vega : α

section Program

variable {α : Type} [Add α] [Sub α] [Mul α] [Div α] [Neg α] [OfNat α 1] [OfNat α 2]
  [OfScientific α] [LT α] [DecidableRel (fun a b : α => a < b)]

/-- CND, the cumulative normal distribution: `0.5 * math.Erfc(-x/math.Sqrt2)`. -/
def CND (m : GoMath α) (x : α) : α :=
  0.5 * m.Erfc (-x / m.Sqrt2)

/-- PD, the probability density:
`(1 / math.Sqrt(2*math.Pi)) * math.Exp(-0.5*math.Pow(x, 2))`. -/
def PD (m : GoMath α) (x : α) : α :=
  (1 / m.Sqrt (2 * m.Pi)) * m.Exp (-0.5 * m.Pow x 2)

/-! ## black_scholes.go -/

/-- The struct `BlackScholes`: the contract and the observed option price. -/
structure BlackScholes (α : Type) where
  /-- The price of the option. -/
  DerivativePrice : α
  /-- The price of the underlying asset. -/
  UnderlyingPrice : α
  /-- The strike price. -/
  StrikePrice : α
  /-- The annualized time to expiration. -/
  TimeToMaturity : α
  /-- The interest rate. -/
  RiskRate : α
  /-- The annualized continuous dividend yield. -/
  Dividend : α
  /-- True for a call option, false for a put option. -/
  IsCall : Bool

/-- The method `d1`. -/
def BlackScholes.d1 (m : GoMath α) (b : BlackScholes α) (sigma : α) : α :=
  (m.Log (b.UnderlyingPrice / b.StrikePrice)
      + (b.RiskRate - b.Dividend + 0.5 * m.Pow sigma 2) * b.TimeToMaturity)
    / (sigma * m.Sqrt b.TimeToMaturity)

/-- The method `d2`. -/
def BlackScholes.d2 (m : GoMath α) (b : BlackScholes α) (sigma : α) : α :=
  b.d1 m sigma - sigma * m.Sqrt b.TimeToMaturity

/-- The method `Price`. -/
def BlackScholes.Price (m : GoMath α) (b : BlackScholes α) (sigma : α) : α :=
  let d1 := b.d1 m sigma
  let d2 := b.d2 m sigma
  if b.IsCall then
    b.UnderlyingPrice * m.Exp (-b.Dividend * b.TimeToMaturity) * CND m d1
      - b.StrikePrice * m.Exp (-b.RiskRate * b.TimeToMaturity) * CND m d2
  else
    b.StrikePrice * m.Exp (-b.RiskRate * b.TimeToMaturity) * CND m (-d2)
      - b.UnderlyingPrice * m.Exp (-b.Dividend * b.TimeToMaturity) * CND m (-d1)

/-- The divisor of the update in the loop of `IV`, the local variable the
source names `vega`. -/
def BlackScholes.IVDivisor (m : GoMath α) (b : BlackScholes α) (sigma : α) : α :=
  b.UnderlyingPrice * m.Exp (-b.Dividend * b.TimeToMaturity) * m.Sqrt b.TimeToMaturity
    * CND m (b.d1 m sigma)

/-- The loop of `IV` with `fuel` iterations left, entered at `sigma`: each
iteration returns `sigma` when the price is within `tolerance` of
`DerivativePrice` and otherwise updates `sigma`; out of iterations, the loop
is left and `sigma` is returned. -/
def BlackScholes.IVLoop (m : GoMath α) (b : BlackScholes α) (tolerance : α) :
    Nat → α → α
  | 0, sigma => sigma
  | fuel + 1, sigma =>
    let price := b.Price m sigma
    let vega := b.IVDivisor m sigma
    let priceDiff := price - b.DerivativePrice
    if m.Abs priceDiff < tolerance then sigma
    else b.IVLoop m tolerance fuel (sigma - priceDiff / vega)

/-- The method `IV`: implied volatility. -/
def BlackScholes.IV (m : GoMath α) (b : BlackScholes α) : α :=
  let sigma : α := 0.25
  let tolerance : α := 1e-8
  let maxIterations : Nat := 1000
  b.IVLoop m tolerance maxIterations sigma

/-- The method `Delta`. -/
def BlackScholes.Delta (m : GoMath α) (b : BlackScholes α) (sigma : α) : α :=
  let d1 := b.d1 m sigma
  if b.IsCall then
    m.Exp (-b.Dividend * b.TimeToMaturity) * CND m d1
  else
    -m.Exp (-b.Dividend * b.TimeToMaturity) * CND m (-d1)

/-- The method `Gamma`. -/
def BlackScholes.Gamma (m : GoMath α) (b : BlackScholes α) (sigma : α) : α :=
  let d1 := b.d1 m sigma
  (PD m d1 * m.Exp (-b.Dividend * b.TimeToMaturity))
    / (b.UnderlyingPrice * sigma * m.Sqrt b.TimeToMaturity)

/-- The method `Theta`. -/
def BlackScholes.Theta (m : GoMath α) (b : BlackScholes α) (sigma : α) : α :=
  let d1 := b.d1 m sigma
  let d2 := b.d2 m sigma
  if b.IsCall then
    (-b.UnderlyingPrice * PD m d1 * sigma / (2 * m.Sqrt b.TimeToMaturity)
      - (b.RiskRate * b.StrikePrice * m.Exp (-b.RiskRate * b.TimeToMaturity) * CND m d2))
      / 365.0
  else
    (-b.UnderlyingPrice * PD m d1 * sigma * m.Exp (-b.Dividend * b.TimeToMaturity)
          / (2 * m.Sqrt b.TimeToMaturity)
        + (b.RiskRate * b.StrikePrice * m.Exp (-b.RiskRate * b.TimeToMaturity) * CND m (-d2))
        - (b.Dividend * b.UnderlyingPrice * m.Exp (-b.Dividend * b.TimeToMaturity)
            * CND m (-d1)))
      / 365.0

/-- The method `Rho`. -/
def BlackScholes.Rho (m : GoMath α) (b : BlackScholes α) (sigma : α) : α :=
  let d2 := b.d2 m sigma
  if b.IsCall then
    b.StrikePrice * b.TimeToMaturity * m.Exp (-b.RiskRate * b.TimeToMaturity) * CND m d2
      / 100.0
  else
    -b.StrikePrice * b.TimeToMaturity * m.Exp (-b.RiskRate * b.TimeToMaturity) * CND m (-d2)
      / 100.0

/-- The method `Vega`. -/
def BlackScholes.Vega (m : GoMath α) (b : BlackScholes α) (sigma : α) : α :=
  let d1 := b.d1 m sigma
  b.UnderlyingPrice * m.Sqrt b.TimeToMaturity * PD m d1
    * m.Exp (-b.Dividend * b.TimeToMaturity) / 100.0

/-- The method `Greeks`. -/
def BlackScholes.Greeks (m : GoMath α) (b : BlackScholes α) : Greeks α :=
  let impliedVolatility := b.IV m
  { Delta := b.Delta m impliedVolatility
    Gamma := b.Gamma m impliedVolatility
    Theta := b.Theta m impliedVolatility
    Rho := b.Rho m impliedVolatility
    Vega := b.Vega m impliedVolatility }

/-- The iterates of the loop of `IV`: `s 0 = 0.25` and
`s (n+1) = s n - (Price (s n) - DerivativePrice) / IVDivisor (s n)`. -/
def BlackScholes.iterate (m : GoMath α) (b : BlackScholes α) : Nat → α
  | 0 => 0.25
  | n + 1 =>
    b.iterate m n - (b.Price m (b.iterate m n) - b.DerivativePrice) / b.IVDivisor m (b.iterate m n)

end Program

/-! ## Contracts used as concrete inputs -/

/-- The contract of the repository's tests (`black_scholes_test.go`). -/
def fixture : BlackScholes ℝ :=
  ⟨1.2, 112.5, 190, 0.21095890410958903, 0.5, 0, true⟩

/-- An at-the-money contract: spot 100, strike 100, one year to maturity, no
interest and no dividend, with observed price `P`. -/
def atTheMoney (P : ℝ) (isCall : Bool) : BlackScholes ℝ :=
  ⟨P, 100, 100, 1, 0, 0, isCall⟩

/-- A call far out of the money: spot 1, strike 100, one year to maturity, no
interest and no dividend, with observed price `P`. -/
def deepCallAt (P : ℝ) : BlackScholes ℝ :=
  ⟨P, 1, 100, 1, 0, 0, true⟩

/-- The call `deepCallAt` whose observed price is its own theoretical price at
the volatility 3. -/
noncomputable def deepCall : BlackScholes ℝ :=
  deepCallAt ((deepCallAt 0).Price realMath 3)

/-- A contract on a dividend-paying asset: spot 100, strike 100, one year to
maturity, interest 5%, dividend yield 2%, observed price 10. -/
def dividendContract (isCall : Bool) : BlackScholes ℝ :=
  ⟨10, 100, 100, 1, 0.05, 0.02, isCall⟩

/-! ## float64 values and the `math` package over them -/

/-- A float64 value, rounding left aside: a real number, an infinity or NaN.
Rounding, the overflow of the arithmetic and the sign of zero are not
modelled: a zero divisor counts as `+0`. -/
inductive F64 where
  /-- A finite value. -/
  | num (x : ℝ)
  /-- The value `+Inf`. -/
  | posInf
  /-- The value `-Inf`. -/
  | negInf
  /-- The value NaN. -/
  | nan

namespace F64

/-- Negation: `-NaN = NaN`, `-(+Inf) = -Inf`. -/
def neg : F64 → F64
  | num x => num (-x)
  | posInf => negInf
  | negInf => posInf
  | nan => nan

/-- Addition: NaN is absorbing and `+Inf + -Inf = NaN`. -/
def add : F64 → F64 → F64
  | num x, num y => num (x + y)
  | nan, _ => nan
  | _, nan => nan
  | posInf, negInf => nan
  | negInf, posInf => nan
  | posInf, _ => posInf
  | _, posInf => posInf
  | negInf, _ => negInf
  | _, negInf => negInf

/-- Subtraction: NaN is absorbing and `+Inf - +Inf = NaN`. -/
def sub : F64 → F64 → F64
  | num x, num y => num (x - y)
  | nan, _ => nan
  | _, nan => nan
  | posInf, posInf => nan
  | negInf, negInf => nan
  | posInf, _ => posInf
  | _, negInf => posInf
  | negInf, _ => negInf
  | _, posInf => negInf

/-- An infinity that takes the sign of the finite factor `x`; `0 * Inf = NaN`. -/
noncomputable def signed (x : ℝ) (pos neg : F64) : F64 :=
  if 0 < x then pos else if x < 0 then neg else nan

/-- Multiplication: NaN is absorbing, `0 * Inf = NaN`, the signs multiply. -/
noncomputable def mul : F64 → F64 → F64
  | num x, num y => num (x * y)
  | nan, _ => nan
  | _, nan => nan
  | num x, posInf => signed x posInf negInf
  | num x, negInf => signed x negInf posInf
  | posInf, num y => signed y posInf negInf
  | negInf, num y => signed y negInf posInf
  | posInf, posInf => posInf
  | negInf, negInf => posInf
  | posInf, negInf => negInf
  | negInf, posInf => negInf

/-- Division: NaN is absorbing, `0 / 0 = NaN`, `Inf / Inf = NaN`, `x / 0` is an
infinity with the sign of `x`, and `x / Inf = 0`. -/
noncomputable def div : F64 → F64 → F64
  | num x, num y => if y = 0 then signed x posInf negInf else num (x / y)
  | nan, _ => nan
  | _, nan => nan
  | num _, posInf => num 0
  | num _, negInf => num 0
  | posInf, num y => if 0 ≤ y then posInf else negInf
  | negInf, num y => if 0 ≤ y then negInf else posInf
  | posInf, posInf => nan
  | posInf, negInf => nan
  | negInf, posInf => nan
  | negInf, negInf => nan

/-- The order `<`: every comparison with NaN is false. -/
def lt : F64 → F64 → Prop
  | num x, num y => x < y
  | negInf, num _ => True
  | negInf, posInf => True
  | num _, posInf => True
  | _, _ => False

instance : Neg F64 := ⟨neg⟩
instance : Add F64 := ⟨add⟩
instance : Sub F64 := ⟨sub⟩
noncomputable instance : Mul F64 := ⟨mul⟩
noncomputable instance : Div F64 := ⟨div⟩
instance : LT F64 := ⟨lt⟩
instance : OfNat F64 0 := ⟨num 0⟩
instance : OfNat F64 1 := ⟨num 1⟩
instance : OfNat F64 2 := ⟨num 2⟩
instance : OfScientific F64 := ⟨fun m s e => num (OfScientific.ofScientific m s e)⟩
noncomputable instance : DecidableRel (fun a b : F64 => a < b) :=
  fun _ _ => Classical.propDecidable _

end F64

/-- Go's `math` package over float64 values, rounding left aside, with the
special cases its documentation lists and the underflow of `math.Exp` and
`math.Erfc`:
* `Exp(NaN) = NaN`, `Exp(+Inf) = +Inf`, `Exp(-Inf) = 0`; `Exp x` is `0` below
  `Underflow = -7.45133219101941108420e+02` and `+Inf` above
  `Overflow = 7.09782712893383973096e+02` (`exp.go`);
* `Log(NaN) = NaN`, `Log(+Inf) = +Inf`, `Log(0) = -Inf`, `Log(x < 0) = NaN`;
* `Sqrt(NaN) = NaN`, `Sqrt(+Inf) = +Inf`, `Sqrt(x < 0) = NaN`;
* `Abs(NaN) = NaN`, `Abs(±Inf) = +Inf`;
* `Erfc(NaN) = NaN`, `Erfc(+Inf) = 0`, `Erfc(-Inf) = 2`; `Erfc x` is exactly `0`
  from `x = 28` on and exactly `2` below `x = -6` (`erf.go`);
* `Pow(x, 2)`, the only call of the program, is `x * x`; on other finite
  arguments it is the real power, and the remaining cases of `math.Pow` are
  not modelled. -/
noncomputable def floatMath : GoMath F64 where
  Exp := fun a => match a with
    | F64.num x =>
      if x < -7.45133219101941108420e+02 then F64.num 0
      else if 7.09782712893383973096e+02 < x then F64.posInf
      else F64.num (Real.exp x)
    | F64.posInf => F64.posInf
    | F64.negInf => F64.num 0
    | F64.nan => F64.nan
  Log := fun a => match a with
    | F64.num x =>
      if x < 0 then F64.nan else if x = 0 then F64.negInf else F64.num (Real.log x)
    | F64.posInf => F64.posInf
    | F64.negInf => F64.nan
    | F64.nan => F64.nan
  Sqrt := fun a => match a with
    | F64.num x => if x < 0 then F64.nan else F64.num (Real.sqrt x)
    | F64.posInf => F64.posInf
    | F64.negInf => F64.nan
    | F64.nan => F64.nan
  Pow := fun a e => match a, e with
    | a, F64.num y =>
      if y = 2 then a * a
      else match a with
        | F64.num x => F64.num (x ^ y)
        | _ => F64.nan
    | _, _ => F64.nan
  Abs := fun a => match a with
    | F64.num x => F64.num |x|
    | F64.posInf => F64.posInf
    | F64.negInf => F64.posInf
    | F64.nan => F64.nan
  Erfc := fun a => match a with
    | F64.num x =>
      if 28 ≤ x then F64.num 0 else if x < -6 then F64.num 2 else F64.num (Erfc x)
    | F64.posInf => F64.num 0
    | F64.negInf => F64.num 2
    | F64.nan => F64.nan
  Pi := F64.num Real.pi
  Sqrt2 := F64.num (Real.sqrt 2)

/-- A call very far out of the money, in float64 values: spot 1, strike
100000, one year to maturity, no interest and no dividend, observed price 1. -/
def farCall : BlackScholes F64 :=
  ⟨F64.num 1, F64.num 1, F64.num 100000, F64.num 1, F64.num 0, F64.num 0, true⟩

/-- An at-the-money contract, in float64 values: spot 100, strike 100, one
year to maturity, no interest and no dividend, observed price 10. -/
def flatContract (isCall : Bool) : BlackScholes F64 :=
  ⟨F64.num 10, F64.num 100, F64.num 100, F64.num 1, F64.num 0, F64.num 0, isCall⟩

/-! ## The primitives over the real numbers -/

/-- The normal law, over the real numbers.  `PD` is the positive, even density
`exp (-x²/2) / sqrt (2π)`; `CND x` is the integral of `PD` over `(-∞, x]`, so that
`CND (-x) = 1 - CND x`, `CND 0 = 0.5`, `CND' = PD`, `CND` is strictly increasing
with values in `(0, 1]`; the tail satisfies `CND (-y) ≤ exp (-y²/2) / 2` for
`y ≥ 0`; `PD ≥ 1/27` on `[-2, 2]`; and the ratio `CND / PD` is strictly
increasing, stated as `CND x * PD y < CND y * PD x` for `x < y`. -/
theorem normal_law :
    (∀ (x : ℝ), PD realMath x = 1 / Real.sqrt (2 * Real.pi) * Real.exp (-0.5 * x ^ 2))
    ∧ (∀ (x : ℝ), 0 < PD realMath x)
    ∧ (∀ (x : ℝ), PD realMath (-x) = PD realMath x)
    ∧ (∀ (x : ℝ), CND realMath x = ∫ t in Iic x, PD realMath t)
    ∧ (∀ (x : ℝ), 0 ≤ CND realMath x)
    ∧ (∀ (x : ℝ), CND realMath x ≤ 1)
    ∧ (∀ (x : ℝ), CND realMath (-x) = 1 - CND realMath x)
    ∧ (CND realMath 0 = 0.5)
    ∧ (∀ (x : ℝ), HasDerivAt (CND realMath) (PD realMath x) x)
    ∧ (StrictMono (CND realMath))
    ∧ (∀ (x : ℝ), 0 < CND realMath x)
    ∧ (∀ (y : ℝ), 0 ≤ y → CND realMath (-y) ≤ 0.5 * Real.exp (-(y ^ 2) / 2))
    ∧ (∀ (x : ℝ), 0 ≤ x → 0.5 ≤ CND realMath x)
    ∧ (∀ (d : ℝ), d ^ 2 ≤ 4 → 1 / 27 ≤ PD realMath d)
    ∧ (∀ (x y : ℝ), x < y → CND realMath x * PD realMath y < CND realMath y * PD realMath x) := by
  have CND_real : ∀ (x : ℝ), CND realMath x = 0.5 * Erfc (-x / Real.sqrt 2) :=
    fun x => rfl
  have PD_real : ∀ (x : ℝ),
      PD realMath x = 1 / Real.sqrt (2 * Real.pi) * Real.exp (-0.5 * x ^ 2) := by
    intro x
    show 1 / Real.sqrt (2 * Real.pi) * Real.exp (-0.5 * x ^ (2 : ℝ)) = _
    rw [Real.rpow_two]
  have PD_pos : ∀ (x : ℝ), 0 < PD realMath x := by
    intro x
    rw [PD_real]
    have : 0 < Real.sqrt (2 * Real.pi) := Real.sqrt_pos.2 (by positivity)
    positivity
  have PD_neg : ∀ (x : ℝ), PD realMath (-x) = PD realMath x := by
    intro x
    simp only [PD_real, neg_sq]
  have PD_continuous : Continuous (PD realMath) := by
    have : PD realMath = fun x : ℝ => 1 / Real.sqrt (2 * Real.pi) * Real.exp (-0.5 * x ^ 2) :=
      funext PD_real
    rw [this]
    fun_prop
  have PD_integrable : Integrable (PD realMath) := by
    have h := (integrable_exp_neg_mul_sq (show (0 : ℝ) < 0.5 by norm_num)).const_mul
      (1 / Real.sqrt (2 * Real.pi))
    have : PD realMath = fun x : ℝ => 1 / Real.sqrt (2 * Real.pi) * Real.exp (-0.5 * x ^ 2) :=
      funext PD_real
    rw [this]
    exact h
  have PD_integral : ∫ t, PD realMath t = 1 := by
    have : PD realMath = fun x : ℝ => 1 / Real.sqrt (2 * Real.pi) * Real.exp (-0.5 * x ^ 2) :=
      funext PD_real
    rw [this, integral_mul_left, integral_gaussian]
    have h : Real.pi / 0.5 = 2 * Real.pi := by ring
    have hpos : 0 < Real.sqrt (2 * Real.pi) := Real.sqrt_pos.2 (by positivity)
    rw [h]
    field_simp
  -- CND is the integral of PD over the half-line up to its argument.
  have CND_eq_integral : ∀ (x : ℝ), CND realMath x = ∫ t in Iic x, PD realMath t := by
    intro x
    have h2 : (0 : ℝ) < Real.sqrt 2 := Real.sqrt_pos.2 (by norm_num)
    have hpi : (0 : ℝ) < Real.sqrt Real.pi := Real.sqrt_pos.2 Real.pi_pos
    have hb : (0 : ℝ) < (Real.sqrt 2)⁻¹ := inv_pos.2 h2
    have hflip : ∫ t in Iic x, PD realMath t = ∫ t in Ioi (-x), PD realMath t := by
      rw [← integral_comp_neg_Iic]
      simp only [PD_neg]
    have hscale : ∀ t : ℝ, PD realMath t
        = 1 / Real.sqrt (2 * Real.pi) * (fun u : ℝ => Real.exp (-u ^ 2)) ((Real.sqrt 2)⁻¹ * t) := by
      intro t
      rw [PD_real]
      congr 2
      rw [mul_pow, inv_pow, Real.sq_sqrt (by norm_num : (0 : ℝ) ≤ 2)]
      ring
    rw [hflip, CND_real]
    show 0.5 * (2 / Real.sqrt Real.pi * ∫ t in Ioi (-x / Real.sqrt 2), Real.exp (-t ^ 2)) = _
    simp only [hscale]
    rw [integral_mul_left, integral_comp_mul_left_Ioi (fun u : ℝ => Real.exp (-u ^ 2)) _ hb,
      smul_eq_mul, inv_inv, Real.sqrt_mul (by norm_num : (0 : ℝ) ≤ 2)]
    have harg : (Real.sqrt 2)⁻¹ * -x = -x / Real.sqrt 2 := by
      field_simp
    rw [harg]
    field_simp
    ring
  have CND_nonneg : ∀ (x : ℝ), 0 ≤ CND realMath x := by
    intro x
    rw [CND_eq_integral]
    exact setIntegral_nonneg measurableSet_Iic (fun t _ => (PD_pos t).le)
  have CND_le_one : ∀ (x : ℝ), CND realMath x ≤ 1 := by
    intro x
    rw [CND_eq_integral, ← PD_integral]
    exact setIntegral_le_integral PD_integrable (Filter.Eventually.of_forall fun t => (PD_pos t).le)
  -- Reflection: the mass below `-x` is the mass above `x`.
  have CND_neg : ∀ (x : ℝ), CND realMath (-x) = 1 - CND realMath x := by
    intro x
    have hflip : ∫ t in Iic (-x), PD realMath t = ∫ t in Ioi x, PD realMath t := by
      have h := integral_comp_neg_Iic (-x) (PD realMath)
      simp only [PD_neg, neg_neg] at h
      exact h
    have hsplit := integral_add_compl (measurableSet_Iic (a := x)) PD_integrable
    rw [compl_Iic, PD_integral] at hsplit
    rw [CND_eq_integral, CND_eq_integral, hflip]
    linarith
  have CND_zero : CND realMath 0 = 0.5 := by
    have h := CND_neg 0
    rw [neg_zero] at h
    norm_num
    linarith
  -- The derivative of CND is PD.
  have CND_hasDerivAt : ∀ (x : ℝ), HasDerivAt (CND realMath) (PD realMath x) x := by
    intro x
    have hfun : CND realMath
        = fun y => (∫ t in Iic (0 : ℝ), PD realMath t) + ∫ t in (0 : ℝ)..y, PD realMath t := by
      funext y
      rw [CND_eq_integral, ← intervalIntegral.integral_Iic_sub_Iic PD_integrable.integrableOn
        PD_integrable.integrableOn]
      ring
    rw [hfun]
    exact ((PD_continuous.integral_hasStrictDerivAt 0 x).hasDerivAt).const_add _
  have CND_strictMono : StrictMono (CND realMath) := by
    apply strictMono_of_deriv_pos
    intro x
    rw [(CND_hasDerivAt x).deriv]
    exact PD_pos x
  have CND_pos : ∀ (x : ℝ), 0 < CND realMath x :=
    fun x => lt_of_le_of_lt (CND_nonneg (x - 1)) (CND_strictMono (by linarith))
  have CND_neg_eq_integral : ∀ (x : ℝ), CND realMath (-x) = ∫ t in Ioi x, PD realMath t := by
    intro x
    have h := integral_comp_neg_Iic (-x) (PD realMath)
    simp only [PD_neg, neg_neg] at h
    rw [CND_eq_integral, h]
  have integral_Ioi_shift : ∀ (f : ℝ → ℝ), ∀ (y : ℝ),
      ∫ t in Ioi y, f t = ∫ t in Ioi (0 : ℝ), f (t + y) := by
    intro f y
    rw [← integral_indicator measurableSet_Ioi, ← integral_indicator measurableSet_Ioi,
      ← integral_add_right_eq_self _ y]
    congr 1
    funext t
    simp only [indicator, mem_Ioi]
    by_cases h : 0 < t
    · rw [if_pos h, if_pos (by linarith)]
    · rw [if_neg h, if_neg (by linarith)]
  -- The tail of the normal distribution: `CND (-y) ≤ exp (-y²/2) / 2` for `y ≥ 0`.
  have CND_neg_le : ∀ (y : ℝ), 0 ≤ y → CND realMath (-y) ≤ 0.5 * Real.exp (-(y ^ 2) / 2) := by
    intro y hy
    have h0 : ∫ t in Ioi (0 : ℝ), PD realMath t = 0.5 := by
      rw [← CND_neg_eq_integral, neg_zero, CND_zero]
    have hpt : ∀ t ∈ Ioi (0 : ℝ),
        PD realMath (t + y) ≤ Real.exp (-(y ^ 2) / 2) * PD realMath t := by
      intro t ht
      have ht0 : 0 < t := ht
      have hc : 0 ≤ 1 / Real.sqrt (2 * Real.pi) := by positivity
      rw [PD_real, PD_real, mul_left_comm, ← Real.exp_add]
      apply mul_le_mul_of_nonneg_left _ hc
      apply Real.exp_le_exp.2
      nlinarith [mul_nonneg ht0.le hy]
    rw [CND_neg_eq_integral, integral_Ioi_shift]
    calc ∫ t in Ioi (0 : ℝ), PD realMath (t + y)
        ≤ ∫ t in Ioi (0 : ℝ), Real.exp (-(y ^ 2) / 2) * PD realMath t :=
          setIntegral_mono_on (PD_integrable.comp_add_right y).integrableOn
            (PD_integrable.const_mul _).integrableOn measurableSet_Ioi hpt
      _ = 0.5 * Real.exp (-(y ^ 2) / 2) := by
          rw [integral_mul_left, h0, mul_comm]
  have CND_ge_half : ∀ (x : ℝ), 0 ≤ x → 0.5 ≤ CND realMath x := by
    intro x hx
    have h := CND_strictMono.monotone hx
    rwa [CND_zero] at h
  have exp_neg_two_ge : (1 : ℝ) / 9 ≤ Real.exp (-2) := by
    have h1 : Real.exp 1 ≤ 3 := by
      have := Real.exp_one_lt_d9
      linarith
    have h2 : Real.exp 2 ≤ 9 := by
      have e : Real.exp 2 = Real.exp 1 * Real.exp 1 := by rw [← Real.exp_add]; norm_num
      rw [e]
      nlinarith [Real.exp_pos 1]
    rw [Real.exp_neg, one_div]
    exact inv_anti₀ (Real.exp_pos 2) h2
  -- The density is at least 1/27 on `[-2, 2]`.
  have PD_ge : ∀ (d : ℝ), d ^ 2 ≤ 4 → 1 / 27 ≤ PD realMath d := by
    intro d hd
    have hs : Real.sqrt (2 * Real.pi) ≤ 3 := by
      rw [Real.sqrt_le_left (by norm_num : (0 : ℝ) ≤ 3)]
      nlinarith [Real.pi_le_four]
    have hs0 : 0 < Real.sqrt (2 * Real.pi) := Real.sqrt_pos.2 (by positivity)
    have h3 : (1 : ℝ) / 3 ≤ 1 / Real.sqrt (2 * Real.pi) :=
      one_div_le_one_div_of_le hs0 hs
    have he : Real.exp (-2) ≤ Real.exp (-0.5 * d ^ 2) := Real.exp_le_exp.2 (by linarith)
    have h9 := exp_neg_two_ge
    rw [PD_real]
    calc (1 : ℝ) / 27 = 1 / 3 * (1 / 9) := by norm_num
      _ ≤ 1 / Real.sqrt (2 * Real.pi) * Real.exp (-0.5 * d ^ 2) :=
          mul_le_mul h3 (h9.trans he) (by norm_num) (by positivity)
  have PD_hasDerivAt : ∀ (x : ℝ), HasDerivAt (PD realMath) (-x * PD realMath x) x := by
    intro x
    have hfun : PD realMath
        = fun y : ℝ => 1 / Real.sqrt (2 * Real.pi) * Real.exp (-0.5 * y ^ 2) := funext PD_real
    have h := ((((hasDerivAt_pow 2 x).const_mul (-0.5 : ℝ)).exp).const_mul
      (1 / Real.sqrt (2 * Real.pi)))
    rw [hfun]
    refine h.congr_deriv ?_
    push_cast
    ring
  -- The derivative of `PD x + x * CND x` is `CND x`.
  have mills_hasDerivAt : ∀ (x : ℝ),
      HasDerivAt (fun y => PD realMath y + y * CND realMath y) (CND realMath x) x := by
    intro x
    have h := (PD_hasDerivAt x).add ((hasDerivAt_id x).mul (CND_hasDerivAt x))
    refine h.congr_deriv ?_
    simp only [id]
    ring
  have mills_strictMono : StrictMono (fun y => PD realMath y + y * CND realMath y) := by
    apply strictMono_of_deriv_pos
    intro x
    rw [(mills_hasDerivAt x).deriv]
    exact CND_pos x
  have exp_neg_half_sq_le : ∀ (t : ℝ), 0 < t → Real.exp (-(t ^ 2) / 2) ≤ 2 / t ^ 2 := by
    intro t ht
    have h1 : t ^ 2 / 2 ≤ Real.exp (t ^ 2 / 2) := by
      have := Real.add_one_le_exp (t ^ 2 / 2)
      linarith
    have hpos : 0 < t ^ 2 / 2 := by positivity
    have e : Real.exp (-(t ^ 2) / 2) = (Real.exp (t ^ 2 / 2))⁻¹ := by
      rw [← Real.exp_neg]
      congr 1
      ring
    have e2 : 2 / t ^ 2 = (t ^ 2 / 2)⁻¹ := by
      rw [inv_div]
    rw [e, e2]
    exact inv_anti₀ hpos h1
  have mills_at_neg : ∀ (t : ℝ), 0 < t → -(1 / t) ≤ PD realMath (-t) + -t * CND realMath (-t) := by
    intro t ht
    have hP := PD_pos (-t)
    have hC := CND_neg_le t ht.le
    have hE := exp_neg_half_sq_le t ht
    have hC' : CND realMath (-t) ≤ 1 / t ^ 2 := by
      calc CND realMath (-t) ≤ 0.5 * Real.exp (-(t ^ 2) / 2) := hC
        _ ≤ 0.5 * (2 / t ^ 2) := by linarith
        _ = 1 / t ^ 2 := by ring
    have hmul : t * CND realMath (-t) ≤ 1 / t := by
      calc t * CND realMath (-t) ≤ t * (1 / t ^ 2) := mul_le_mul_of_nonneg_left hC' ht.le
        _ = 1 / t := by field_simp; ring
    linarith
  -- The bound of Mills: `0 ≤ PD x + x * CND x` for every real `x`.
  have mills_nonneg : ∀ (x : ℝ), 0 ≤ PD realMath x + x * CND realMath x := by
    intro x
    by_contra hneg
    push_neg at hneg
    set g := PD realMath x + x * CND realMath x with hg
    have hgpos : 0 < -g := by linarith
    have ht : 0 < |x| + 1 + 2 / -g := by positivity
    have hlt : -(|x| + 1 + 2 / -g) < x := by
      have := neg_abs_le x
      have : 0 < 2 / -g := by positivity
      linarith
    have h1 := mills_strictMono hlt
    have h2 := mills_at_neg _ ht
    have h1' : PD realMath (-(|x| + 1 + 2 / -g)) + -(|x| + 1 + 2 / -g)
        * CND realMath (-(|x| + 1 + 2 / -g)) < g := h1
    have h3 : 1 / (|x| + 1 + 2 / -g) ≤ -g / 2 := by
      have hq : 0 < 2 / -g := by positivity
      have hle : 2 / -g ≤ |x| + 1 + 2 / -g := by linarith [abs_nonneg x]
      have := one_div_le_one_div_of_le hq hle
      rwa [one_div_div] at this
    linarith
  have mills_pos : ∀ (x : ℝ), 0 < PD realMath x + x * CND realMath x :=
    fun x => lt_of_le_of_lt (mills_nonneg (x - 1)) (mills_strictMono (by linarith : x - 1 < x))
  -- The ratio `CND / PD` is strictly increasing.
  have CND_div_PD_strictMono : StrictMono (fun y => CND realMath y / PD realMath y) := by
    apply strictMono_of_deriv_pos
    intro x
    have h := (CND_hasDerivAt x).div (PD_hasDerivAt x) (PD_pos x).ne'
    have hd : deriv (fun y => CND realMath y / PD realMath y) x
        = (PD realMath x * PD realMath x - CND realMath x * (-x * PD realMath x))
          / PD realMath x ^ 2 := h.deriv
    rw [hd]
    have hP := PD_pos x
    have hM := mills_pos x
    apply div_pos _ (by positivity)
    nlinarith [mul_pos hP hM]
  have CND_mul_PD_lt : ∀ (x y : ℝ), x < y →
      CND realMath x * PD realMath y < CND realMath y * PD realMath x := by
    intro x y h
    have hr : CND realMath x / PD realMath x < CND realMath y / PD realMath y :=
      CND_div_PD_strictMono h
    rwa [div_lt_div_iff₀ (PD_pos x) (PD_pos y)] at hr
  exact ⟨PD_real, PD_pos, PD_neg, CND_eq_integral, CND_nonneg, CND_le_one, CND_neg, CND_zero,
    CND_hasDerivAt, CND_strictMono, CND_pos, CND_neg_le, CND_ge_half, PD_ge, CND_mul_PD_lt⟩

/-! ## The pricer over the real numbers -/

/-- The pricer, over the real numbers: the closed form of `d1`, of the call
branch of `Price` and of `100 * Vega`; the derivative of `Price` in the
volatility, which is `100 * Vega`; `Price` is strictly increasing on the
positive volatilities, grows by at least `C * (y - x)` over `[x, y]` when the
raw vega is at least `C` there, and is positive; and the divisor of the
update in `IV` exceeds the raw vega wherever `d1` is nonnegative. -/
theorem pricer_law :
    (∀ (b : BlackScholes ℝ), ∀ (s : ℝ), b.d1 realMath s
        = (Real.log (b.UnderlyingPrice / b.StrikePrice)
            + (b.RiskRate - b.Dividend + 0.5 * s ^ 2) * b.TimeToMaturity)
          / (s * Real.sqrt b.TimeToMaturity))
    ∧ (∀ (b : BlackScholes ℝ), ∀ (s : ℝ), b.IsCall = true → b.Price realMath s
        = b.UnderlyingPrice * Real.exp (-b.Dividend * b.TimeToMaturity)
              * CND realMath (b.d1 realMath s)
            - b.StrikePrice * Real.exp (-b.RiskRate * b.TimeToMaturity)
              * CND realMath (b.d2 realMath s))
    ∧ (∀ (b : BlackScholes ℝ), ∀ (s : ℝ), 100 * b.Vega realMath s
        = b.UnderlyingPrice * Real.exp (-b.Dividend * b.TimeToMaturity)
            * Real.sqrt b.TimeToMaturity * PD realMath (b.d1 realMath s))
    ∧ (∀ (b : BlackScholes ℝ), ∀ (s : ℝ), s ≠ 0 → 0 < b.UnderlyingPrice → 0 < b.StrikePrice →
        0 < b.TimeToMaturity →
        HasDerivAt (fun x => b.Price realMath x) (100 * b.Vega realMath s) s)
    ∧ (∀ (b : BlackScholes ℝ), 0 < b.UnderlyingPrice → 0 < b.StrikePrice →
        0 < b.TimeToMaturity → StrictMonoOn (fun x => b.Price realMath x) (Ioi 0))
    ∧ (∀ (b : BlackScholes ℝ), 0 < b.UnderlyingPrice → 0 < b.StrikePrice →
        0 < b.TimeToMaturity → ∀ (x y C : ℝ), 0 < x → x ≤ y →
        (∀ s ∈ Icc x y, C ≤ 100 * b.Vega realMath s) →
        C * (y - x) ≤ b.Price realMath y - b.Price realMath x)
    ∧ (∀ (b : BlackScholes ℝ), ∀ (s : ℝ), 0 < b.UnderlyingPrice → 0 < b.TimeToMaturity →
        0 ≤ b.d1 realMath s → 100 * b.Vega realMath s < b.IVDivisor realMath s)
    ∧ (∀ (b : BlackScholes ℝ), ∀ (s : ℝ), 0 < s → 0 < b.UnderlyingPrice → 0 < b.StrikePrice →
        0 < b.TimeToMaturity → 0 < b.Price realMath s) := by
  obtain ⟨PD_real, PD_pos, PD_neg, _, _, _, _, _, CND_hasDerivAt, _, _, _, CND_ge_half, _,
    CND_mul_PD_lt⟩ := normal_law
  have d1_real : ∀ (b : BlackScholes ℝ), ∀ (s : ℝ), b.d1 realMath s
        = (Real.log (b.UnderlyingPrice / b.StrikePrice)
            + (b.RiskRate - b.Dividend + 0.5 * s ^ 2) * b.TimeToMaturity)
          / (s * Real.sqrt b.TimeToMaturity) := by
    intro b s
    show (Real.log (b.UnderlyingPrice / b.StrikePrice)
            + (b.RiskRate - b.Dividend + 0.5 * s ^ (2 : ℝ)) * b.TimeToMaturity)
          / (s * Real.sqrt b.TimeToMaturity) = _
    rw [Real.rpow_two]
  have d2_real : ∀ (b : BlackScholes ℝ), ∀ (s : ℝ),
      b.d2 realMath s = b.d1 realMath s - s * Real.sqrt b.TimeToMaturity :=
    fun b s => rfl
  -- The product `d1 * (sigma * sqrt T)` is the numerator of `d1`.
  have d1_mul : ∀ (b : BlackScholes ℝ), ∀ (s : ℝ), s ≠ 0 → 0 < b.TimeToMaturity →
      b.d1 realMath s * (s * Real.sqrt b.TimeToMaturity)
        = Real.log (b.UnderlyingPrice / b.StrikePrice)
            + (b.RiskRate - b.Dividend + 0.5 * s ^ 2) * b.TimeToMaturity := by
    intro b s hs hT
    have hw : Real.sqrt b.TimeToMaturity ≠ 0 := (Real.sqrt_pos.2 hT).ne'
    rw [d1_real, div_mul_cancel₀ _ (mul_ne_zero hs hw)]
  have d1_hasDerivAt : ∀ (b : BlackScholes ℝ), ∀ (s : ℝ), s ≠ 0 → 0 < b.TimeToMaturity →
      HasDerivAt (fun x => b.d1 realMath x)
        (Real.sqrt b.TimeToMaturity - b.d1 realMath s / s) s := by
    intro b s hs hT
    have hw : Real.sqrt b.TimeToMaturity ≠ 0 := (Real.sqrt_pos.2 hT).ne'
    have hww : Real.sqrt b.TimeToMaturity * Real.sqrt b.TimeToMaturity = b.TimeToMaturity :=
      Real.mul_self_sqrt hT.le
    have hnum : HasDerivAt
        (fun x : ℝ => Real.log (b.UnderlyingPrice / b.StrikePrice)
            + (b.RiskRate - b.Dividend + 0.5 * x ^ 2) * b.TimeToMaturity)
        (s * b.TimeToMaturity) s := by
      have h := ((((hasDerivAt_pow 2 s).const_mul (0.5 : ℝ)).const_add
        (b.RiskRate - b.Dividend)).mul_const b.TimeToMaturity).const_add
        (Real.log (b.UnderlyingPrice / b.StrikePrice))
      refine h.congr_deriv ?_
      push_cast
      ring
    have hden : HasDerivAt (fun x : ℝ => x * Real.sqrt b.TimeToMaturity)
        (Real.sqrt b.TimeToMaturity) s := by
      simpa using (hasDerivAt_id s).mul_const (Real.sqrt b.TimeToMaturity)
    have hfun : (fun x => b.d1 realMath x)
        = fun x : ℝ => (Real.log (b.UnderlyingPrice / b.StrikePrice)
            + (b.RiskRate - b.Dividend + 0.5 * x ^ 2) * b.TimeToMaturity)
          / (x * Real.sqrt b.TimeToMaturity) := funext (d1_real b)
    rw [hfun]
    refine (hnum.div hden (mul_ne_zero hs hw)).congr_deriv ?_
    rw [d1_real]
    field_simp
    nth_rewrite 1 [← hww]
    ring
  have d2_hasDerivAt : ∀ (b : BlackScholes ℝ), ∀ (s : ℝ), s ≠ 0 → 0 < b.TimeToMaturity →
      HasDerivAt (fun x => b.d2 realMath x) (-(b.d1 realMath s / s)) s := by
    intro b s hs hT
    have h := (d1_hasDerivAt b s hs hT).sub
      ((hasDerivAt_id s).mul_const (Real.sqrt b.TimeToMaturity))
    refine h.congr_deriv ?_
    simp
  -- The two discounted densities agree:
  -- `S * exp (-q T) * PD d1 = K * exp (-r T) * PD d2`.
  have PD_d1_eq_PD_d2 : ∀ (b : BlackScholes ℝ), ∀ (s : ℝ), s ≠ 0 → 0 < b.UnderlyingPrice →
      0 < b.StrikePrice → 0 < b.TimeToMaturity →
      b.UnderlyingPrice * Real.exp (-b.Dividend * b.TimeToMaturity) * PD realMath (b.d1 realMath s)
        = b.StrikePrice * Real.exp (-b.RiskRate * b.TimeToMaturity)
            * PD realMath (b.d2 realMath s) := by
    intro b s hs hS hK hT
    have hww : Real.sqrt b.TimeToMaturity ^ 2 = b.TimeToMaturity := Real.sq_sqrt hT.le
    have hd := d1_mul b s hs hT
    have hSK : b.UnderlyingPrice
        = b.StrikePrice * Real.exp (Real.log (b.UnderlyingPrice / b.StrikePrice)) := by
      rw [Real.exp_log (div_pos hS hK)]
      field_simp
    rw [PD_real, PD_real, d2_real]
    nth_rewrite 1 [hSK]
    have hexp : Real.exp (Real.log (b.UnderlyingPrice / b.StrikePrice))
          * Real.exp (-b.Dividend * b.TimeToMaturity)
          * Real.exp (-0.5 * b.d1 realMath s ^ 2)
        = Real.exp (-b.RiskRate * b.TimeToMaturity)
          * Real.exp (-0.5 * (b.d1 realMath s - s * Real.sqrt b.TimeToMaturity) ^ 2) := by
      rw [← Real.exp_add, ← Real.exp_add, ← Real.exp_add]
      congr 1
      linear_combination (-1) * hd + 0.5 * s ^ 2 * hww
    calc b.StrikePrice * Real.exp (Real.log (b.UnderlyingPrice / b.StrikePrice))
            * Real.exp (-b.Dividend * b.TimeToMaturity)
            * (1 / Real.sqrt (2 * Real.pi) * Real.exp (-0.5 * b.d1 realMath s ^ 2))
        = b.StrikePrice * (1 / Real.sqrt (2 * Real.pi))
            * (Real.exp (Real.log (b.UnderlyingPrice / b.StrikePrice))
              * Real.exp (-b.Dividend * b.TimeToMaturity)
              * Real.exp (-0.5 * b.d1 realMath s ^ 2)) := by ring
      _ = b.StrikePrice * Real.exp (-b.RiskRate * b.TimeToMaturity)
            * (1 / Real.sqrt (2 * Real.pi)
              * Real.exp (-0.5 * (b.d1 realMath s - s * Real.sqrt b.TimeToMaturity) ^ 2)) := by
          rw [hexp]; ring
  have Price_call : ∀ (b : BlackScholes ℝ), ∀ (s : ℝ), b.IsCall = true → b.Price realMath s
        = b.UnderlyingPrice * Real.exp (-b.Dividend * b.TimeToMaturity)
              * CND realMath (b.d1 realMath s)
            - b.StrikePrice * Real.exp (-b.RiskRate * b.TimeToMaturity)
              * CND realMath (b.d2 realMath s) := by
    intro b s hc
    simp only [BlackScholes.Price, hc, if_true]
  have Price_put : ∀ (b : BlackScholes ℝ), ∀ (s : ℝ), b.IsCall = false → b.Price realMath s
        = b.StrikePrice * Real.exp (-b.RiskRate * b.TimeToMaturity)
              * CND realMath (-b.d2 realMath s)
            - b.UnderlyingPrice * Real.exp (-b.Dividend * b.TimeToMaturity)
              * CND realMath (-b.d1 realMath s) := by
    intro b s hc
    simp only [BlackScholes.Price, hc, Bool.false_eq_true, if_false]
  have Vega_real : ∀ (b : BlackScholes ℝ), ∀ (s : ℝ), 100 * b.Vega realMath s
        = b.UnderlyingPrice * Real.exp (-b.Dividend * b.TimeToMaturity)
            * Real.sqrt b.TimeToMaturity * PD realMath (b.d1 realMath s) := by
    intro b s
    simp only [BlackScholes.Vega]
    norm_num
    ring
  -- The derivative of the price in the volatility is the raw vega.
  have Price_hasDerivAt : ∀ (b : BlackScholes ℝ), ∀ (s : ℝ), s ≠ 0 → 0 < b.UnderlyingPrice →
      0 < b.StrikePrice → 0 < b.TimeToMaturity →
      HasDerivAt (fun x => b.Price realMath x) (100 * b.Vega realMath s) s := by
    intro b s hs hS hK hT
    have h1 := d1_hasDerivAt b s hs hT
    have h2 := d2_hasDerivAt b s hs hT
    have hid := PD_d1_eq_PD_d2 b s hs hS hK hT
    rw [Vega_real]
    cases hc : b.IsCall
    · have hfun : (fun x => b.Price realMath x)
          = fun x => b.StrikePrice * Real.exp (-b.RiskRate * b.TimeToMaturity)
              * CND realMath (-b.d2 realMath x)
            - b.UnderlyingPrice * Real.exp (-b.Dividend * b.TimeToMaturity)
              * CND realMath (-b.d1 realMath x) := funext fun x => Price_put b x hc
      rw [hfun]
      have e1 := ((CND_hasDerivAt (-b.d1 realMath s)).comp s h1.neg).const_mul
        (b.UnderlyingPrice * Real.exp (-b.Dividend * b.TimeToMaturity))
      have e2 := ((CND_hasDerivAt (-b.d2 realMath s)).comp s h2.neg).const_mul
        (b.StrikePrice * Real.exp (-b.RiskRate * b.TimeToMaturity))
      refine (e2.sub e1).congr_deriv ?_
      rw [PD_neg, PD_neg]
      linear_combination (-(b.d1 realMath s / s)) * hid
    · have hfun : (fun x => b.Price realMath x)
          = fun x => b.UnderlyingPrice * Real.exp (-b.Dividend * b.TimeToMaturity)
              * CND realMath (b.d1 realMath x)
            - b.StrikePrice * Real.exp (-b.RiskRate * b.TimeToMaturity)
              * CND realMath (b.d2 realMath x) := funext fun x => Price_call b x hc
      rw [hfun]
      have e1 := ((CND_hasDerivAt (b.d1 realMath s)).comp s h1).const_mul
        (b.UnderlyingPrice * Real.exp (-b.Dividend * b.TimeToMaturity))
      have e2 := ((CND_hasDerivAt (b.d2 realMath s)).comp s h2).const_mul
        (b.StrikePrice * Real.exp (-b.RiskRate * b.TimeToMaturity))
      refine (e1.sub e2).congr_deriv ?_
      linear_combination (-(b.d1 realMath s / s)) * hid
  have Vega_pos : ∀ (b : BlackScholes ℝ), ∀ (s : ℝ), 0 < b.UnderlyingPrice →
      0 < b.TimeToMaturity → 0 < 100 * b.Vega realMath s := by
    intro b s hS hT
    rw [Vega_real]
    have := PD_pos (b.d1 realMath s)
    have := Real.sqrt_pos.2 hT
    have := Real.exp_pos (-b.Dividend * b.TimeToMaturity)
    positivity
  -- The price is strictly increasing in the volatility on the positive half-line.
  have Price_strictMonoOn : ∀ (b : BlackScholes ℝ), 0 < b.UnderlyingPrice → 0 < b.StrikePrice →
      0 < b.TimeToMaturity → StrictMonoOn (fun x => b.Price realMath x) (Ioi 0) := by
    intro b hS hK hT
    apply strictMonoOn_of_deriv_pos (convex_Ioi 0)
    · intro x hx
      exact (Price_hasDerivAt b x (ne_of_gt hx) hS hK hT).continuousAt.continuousWithinAt
    · intro x hx
      rw [interior_Ioi] at hx
      rw [(Price_hasDerivAt b x (ne_of_gt hx) hS hK hT).deriv]
      exact Vega_pos b x hS hT
  -- A lower bound on the raw vega over `[x, y]` bounds the growth of the price.
  have Price_sub_ge : ∀ (b : BlackScholes ℝ), 0 < b.UnderlyingPrice → 0 < b.StrikePrice →
      0 < b.TimeToMaturity → ∀ (x y C : ℝ), 0 < x → x ≤ y →
      (∀ s ∈ Icc x y, C ≤ 100 * b.Vega realMath s) →
      C * (y - x) ≤ b.Price realMath y - b.Price realMath x := by
    intro b hS hK hT x y C hx hxy hC
    have hpos : ∀ s ∈ Icc x y, s ≠ 0 := fun s hs => ne_of_gt (lt_of_lt_of_le hx hs.1)
    refine Convex.mul_sub_le_image_sub_of_le_deriv (convex_Icc x y)
      (f := fun s => b.Price realMath s) ?_ ?_ ?_ x (left_mem_Icc.2 hxy) y (right_mem_Icc.2 hxy) hxy
    · intro s hs
      exact (Price_hasDerivAt b s (hpos s hs) hS hK hT).continuousAt.continuousWithinAt
    · intro s hs
      exact (Price_hasDerivAt b s (hpos s (interior_subset hs)) hS hK
        hT).differentiableAt.differentiableWithinAt
    · intro s hs
      rw [(Price_hasDerivAt b s (hpos s (interior_subset hs)) hS hK hT).deriv]
      exact hC s (interior_subset hs)
  -- The divisor of the update exceeds the raw vega wherever `d1` is
  -- nonnegative: the loop multiplies by `CND d1` where `Vega` multiplies by `PD d1`.
  have Vega_lt_IVDivisor : ∀ (b : BlackScholes ℝ), ∀ (s : ℝ), 0 < b.UnderlyingPrice →
      0 < b.TimeToMaturity → 0 ≤ b.d1 realMath s →
      100 * b.Vega realMath s < b.IVDivisor realMath s := by
    intro b s hS hT hd
    have hPD : PD realMath (b.d1 realMath s) < 0.5 := by
      have hs0 : 0 < Real.sqrt (2 * Real.pi) := Real.sqrt_pos.2 (by positivity)
      have hs : 2 < Real.sqrt (2 * Real.pi) := by
        rw [Real.lt_sqrt (by norm_num)]
        nlinarith [Real.pi_gt_three]
      have he : Real.exp (-0.5 * b.d1 realMath s ^ 2) ≤ 1 :=
        Real.exp_le_one_iff.2 (by nlinarith [sq_nonneg (b.d1 realMath s)])
      have h1 : 1 / Real.sqrt (2 * Real.pi) < 0.5 := by
        rw [div_lt_iff₀ hs0]
        linarith
      rw [PD_real]
      calc 1 / Real.sqrt (2 * Real.pi) * Real.exp (-0.5 * b.d1 realMath s ^ 2)
          ≤ 1 / Real.sqrt (2 * Real.pi) * 1 :=
            mul_le_mul_of_nonneg_left he (by positivity)
        _ < 0.5 := by linarith
    have hCND := CND_ge_half _ hd
    have hc : 0 < b.UnderlyingPrice * Real.exp (-b.Dividend * b.TimeToMaturity)
        * Real.sqrt b.TimeToMaturity := by
      have := Real.sqrt_pos.2 hT
      have := Real.exp_pos (-b.Dividend * b.TimeToMaturity)
      positivity
    rw [Vega_real]
    show _ < b.UnderlyingPrice * Real.exp (-b.Dividend * b.TimeToMaturity)
        * Real.sqrt b.TimeToMaturity * CND realMath (b.d1 realMath s)
    exact mul_lt_mul_of_pos_left (lt_of_lt_of_le hPD hCND) hc
  -- The price of a call or a put is positive.
  have Price_pos : ∀ (b : BlackScholes ℝ), ∀ (s : ℝ), 0 < s → 0 < b.UnderlyingPrice →
      0 < b.StrikePrice → 0 < b.TimeToMaturity → 0 < b.Price realMath s := by
    intro b s hs hS hK hT
    have hid := PD_d1_eq_PD_d2 b s hs.ne' hS hK hT
    have hw := Real.sqrt_pos.2 hT
    have hlt : b.d2 realMath s < b.d1 realMath s := by
      rw [d2_real]
      have : 0 < s * Real.sqrt b.TimeToMaturity := mul_pos hs hw
      linarith
    have hA : 0 < b.UnderlyingPrice * Real.exp (-b.Dividend * b.TimeToMaturity) :=
      mul_pos hS (Real.exp_pos _)
    have hB : 0 < b.StrikePrice * Real.exp (-b.RiskRate * b.TimeToMaturity) :=
      mul_pos hK (Real.exp_pos _)
    have hp1 := PD_pos (b.d1 realMath s)
    have hp2 := PD_pos (b.d2 realMath s)
    cases hc : b.IsCall
    · rw [Price_put b s hc]
      have hm := CND_mul_PD_lt (-b.d1 realMath s) (-b.d2 realMath s) (by linarith)
      rw [PD_neg, PD_neg] at hm
      have key : b.UnderlyingPrice * Real.exp (-b.Dividend * b.TimeToMaturity)
          * CND realMath (-b.d1 realMath s) * PD realMath (b.d2 realMath s)
          < b.StrikePrice * Real.exp (-b.RiskRate * b.TimeToMaturity)
          * CND realMath (-b.d2 realMath s) * PD realMath (b.d2 realMath s) := by
        calc b.UnderlyingPrice * Real.exp (-b.Dividend * b.TimeToMaturity)
              * CND realMath (-b.d1 realMath s) * PD realMath (b.d2 realMath s)
            = b.UnderlyingPrice * Real.exp (-b.Dividend * b.TimeToMaturity)
              * (CND realMath (-b.d1 realMath s) * PD realMath (b.d2 realMath s)) := by ring
          _ < b.UnderlyingPrice * Real.exp (-b.Dividend * b.TimeToMaturity)
              * (CND realMath (-b.d2 realMath s) * PD realMath (b.d1 realMath s)) :=
              mul_lt_mul_of_pos_left hm hA
          _ = b.StrikePrice * Real.exp (-b.RiskRate * b.TimeToMaturity)
              * CND realMath (-b.d2 realMath s) * PD realMath (b.d2 realMath s) := by
              linear_combination (CND realMath (-b.d2 realMath s)) * hid
      have := lt_of_mul_lt_mul_right key hp2.le
      linarith
    · rw [Price_call b s hc]
      have hm := CND_mul_PD_lt (b.d2 realMath s) (b.d1 realMath s) hlt
      have key : b.StrikePrice * Real.exp (-b.RiskRate * b.TimeToMaturity)
          * CND realMath (b.d2 realMath s) * PD realMath (b.d1 realMath s)
          < b.UnderlyingPrice * Real.exp (-b.Dividend * b.TimeToMaturity)
          * CND realMath (b.d1 realMath s) * PD realMath (b.d1 realMath s) := by
        calc b.StrikePrice * Real.exp (-b.RiskRate * b.TimeToMaturity)
              * CND realMath (b.d2 realMath s) * PD realMath (b.d1 realMath s)
            = b.StrikePrice * Real.exp (-b.RiskRate * b.TimeToMaturity)
              * (CND realMath (b.d2 realMath s) * PD realMath (b.d1 realMath s)) := by ring
          _ < b.StrikePrice * Real.exp (-b.RiskRate * b.TimeToMaturity)
              * (CND realMath (b.d1 realMath s) * PD realMath (b.d2 realMath s)) :=
              mul_lt_mul_of_pos_left hm hB
          _ = b.UnderlyingPrice * Real.exp (-b.Dividend * b.TimeToMaturity)
              * CND realMath (b.d1 realMath s) * PD realMath (b.d1 realMath s) := by
              linear_combination (-(CND realMath (b.d1 realMath s))) * hid
      have := lt_of_mul_lt_mul_right key hp1.le
      linarith
  exact ⟨d1_real, Price_call, Vega_real, Price_hasDerivAt, Price_strictMonoOn, Price_sub_ge,
    Vega_lt_IVDivisor, Price_pos⟩

/-! ## The loop of `IV` -/

section Loop

variable {α : Type} [Add α] [Sub α] [Mul α] [Div α] [Neg α] [OfNat α 2]
  [OfScientific α] [LT α] [DecidableRel (fun a b : α => a < b)]

theorem IVLoop_succ (m : GoMath α) (b : BlackScholes α) (tol : α) (k : Nat) (s : α) :
    b.IVLoop m tol (k + 1) s
      = if m.Abs (b.Price m s - b.DerivativePrice) < tol then s
        else b.IVLoop m tol k (s - (b.Price m s - b.DerivativePrice) / b.IVDivisor m s) := rfl

/-- When the first iterate from the `n`-th on that meets the test is the
`(n+j)`-th and `j` iterations are left, the loop entered at the `n`-th
iterate returns it. -/
theorem IVLoop_hit (m : GoMath α) (b : BlackScholes α) (tol : α) :
    ∀ (k n j : Nat), j < k →
      m.Abs (b.Price m (b.iterate m (n + j)) - b.DerivativePrice) < tol →
      (∀ i, i < j → ¬ m.Abs (b.Price m (b.iterate m (n + i)) - b.DerivativePrice) < tol) →
      b.IVLoop m tol k (b.iterate m n) = b.iterate m (n + j) := by
  intro k
  induction k with
  | zero => intro n j hj; omega
  | succ k ih =>
    intro n j hj hit miss
    rw [IVLoop_succ]
    cases j with
    | zero => rw [if_pos (by simpa using hit)]; rfl
    | succ j =>
      have h0 := miss 0 (Nat.succ_pos j)
      rw [Nat.add_zero] at h0
      rw [if_neg h0]
      have hstep : b.iterate m n
          - (b.Price m (b.iterate m n) - b.DerivativePrice) / b.IVDivisor m (b.iterate m n)
          = b.iterate m (n + 1) := rfl
      rw [hstep, ih (n + 1) j (by omega)]
      · congr 1; omega
      · have e : n + 1 + j = n + (j + 1) := by omega
        rw [e]; exact hit
      · intro i hi
        have e : n + 1 + i = n + (i + 1) := by omega
        rw [e]; exact miss (i + 1) (by omega)

/-- When none of the next `k` iterates meets the test, the loop runs out of
iterations and returns the iterate it has reached. -/
theorem IVLoop_miss (m : GoMath α) (b : BlackScholes α) (tol : α) :
    ∀ (k n : Nat),
      (∀ i, i < k → ¬ m.Abs (b.Price m (b.iterate m (n + i)) - b.DerivativePrice) < tol) →
      b.IVLoop m tol k (b.iterate m n) = b.iterate m (n + k) := by
  intro k
  induction k with
  | zero => intro n _; rfl
  | succ k ih =>
    intro n miss
    rw [IVLoop_succ]
    have h0 := miss 0 (Nat.succ_pos k)
    rw [Nat.add_zero] at h0
    rw [if_neg h0]
    have hstep : b.iterate m n
        - (b.Price m (b.iterate m n) - b.DerivativePrice) / b.IVDivisor m (b.iterate m n)
        = b.iterate m (n + 1) := rfl
    rw [hstep, ih (n + 1)]
    · congr 1; omega
    · intro i hi
      have e : n + 1 + i = n + (i + 1) := by omega
      rw [e]; exact miss (i + 1) (by omega)

theorem IV_eq_IVLoop (m : GoMath α) (b : BlackScholes α) :
    b.IV m = b.IVLoop m 1e-8 1000 (b.iterate m 0) := rfl

/-- The value `IV` returns is one of the iterates `s_0, …, s_1000`, either the
first that meets the test or, when none of the first 1000 does, the last. -/
theorem IV_cases (m : GoMath α) (b : BlackScholes α) :
    (∃ n, n < 1000 ∧ b.IV m = b.iterate m n
        ∧ m.Abs (b.Price m (b.iterate m n) - b.DerivativePrice) < 1e-8
        ∧ ∀ j, j < n →
            ¬ m.Abs (b.Price m (b.iterate m j) - b.DerivativePrice) < 1e-8)
    ∨ (b.IV m = b.iterate m 1000
        ∧ ∀ j, j < 1000 →
            ¬ m.Abs (b.Price m (b.iterate m j) - b.DerivativePrice) < 1e-8) := by
  by_cases h : ∃ n, n < 1000
      ∧ m.Abs (b.Price m (b.iterate m n) - b.DerivativePrice) < 1e-8
  · left
    classical
    refine ⟨Nat.find h, (Nat.find_spec h).1, ?_, (Nat.find_spec h).2, ?_⟩
    · have := IVLoop_hit m b 1e-8 1000 0 (Nat.find h) (Nat.find_spec h).1
        (by simpa using (Nat.find_spec h).2)
        (by
          intro i hi
          have := Nat.find_min h hi
          simp only [Nat.zero_add]
          intro hc
          exact this ⟨lt_trans hi (Nat.find_spec h).1, hc⟩)
      rw [IV_eq_IVLoop, this, Nat.zero_add]
    · intro j hj hc
      exact Nat.find_min h hj ⟨lt_trans hj (Nat.find_spec h).1, hc⟩
  · right
    have hm : ∀ j, j < 1000 →
        ¬ m.Abs (b.Price m (b.iterate m j) - b.DerivativePrice) < 1e-8 :=
      fun j hj hc => h ⟨j, hj, hc⟩
    refine ⟨?_, hm⟩
    rw [IV_eq_IVLoop, IVLoop_miss m b 1e-8 1000 0 (by simpa using hm)]

end Loop

/-! ## The solver on the deep out-of-the-money call -/

/-- The solver on the deep out-of-the-money call `deepCall`: the contract is
valid, its observed price is its price at the volatility 3, none of its
iterates `s_0, …, s_1000` meets the stopping test of the loop, and `IV`
returns `s_1000`. -/
theorem deepCall_law :
    (0 < deepCall.UnderlyingPrice ∧ 0 < deepCall.StrikePrice ∧ 0 < deepCall.TimeToMaturity)
    ∧ (deepCall.DerivativePrice = deepCall.Price realMath 3)
    ∧ (∀ (n : Nat), n ≤ 1000 →
        ¬ |deepCall.Price realMath (deepCall.iterate realMath n) - deepCall.DerivativePrice|
          < 1e-8)
    ∧ (deepCall.IV realMath = deepCall.iterate realMath 1000) := by
  obtain ⟨_, _, _, _, CND_nonneg, CND_le_one, _, _, _, CND_strictMono, CND_pos, CND_neg_le,
    CND_ge_half, PD_ge, _⟩ := normal_law
  obtain ⟨d1_real, Price_call, Vega_real, _, Price_strictMonoOn, Price_sub_ge, _⟩ := pricer_law
  have log_hundredth_le : Real.log (1 / 100) ≤ -4 := by
    rw [Real.log_le_iff_le_exp (by norm_num)]
    have h1 : Real.exp 1 ≤ 3 := by
      have := Real.exp_one_lt_d9
      linarith
    have e : Real.exp 4 = Real.exp 1 ^ 4 := by rw [Real.exp_one_pow]; norm_num
    have h4 : Real.exp 4 ≤ 100 := by
      rw [e]
      calc Real.exp 1 ^ 4 ≤ 3 ^ 4 := pow_le_pow_left₀ (Real.exp_pos 1).le h1 4
        _ ≤ 100 := by norm_num
    rw [Real.exp_neg, one_div]
    exact inv_anti₀ (Real.exp_pos 4) h4
  have log_hundredth_ge : -5 ≤ Real.log (1 / 100) := by
    rw [Real.le_log_iff_exp_le (by norm_num)]
    have h1 : (2.7 : ℝ) ≤ Real.exp 1 := by
      have := Real.exp_one_gt_d9
      linarith
    have e : Real.exp 5 = Real.exp 1 ^ 5 := by rw [Real.exp_one_pow]; norm_num
    have h5 : (100 : ℝ) ≤ Real.exp 5 := by
      rw [e]
      calc (100 : ℝ) ≤ 2.7 ^ 5 := by norm_num
        _ ≤ Real.exp 1 ^ 5 := pow_le_pow_left₀ (by norm_num) h1 5
    rw [Real.exp_neg, one_div]
    exact inv_anti₀ (by norm_num) h5
  have deepCall_d1 : ∀ (s : ℝ), deepCall.d1 realMath s = (Real.log (1 / 100) + 0.5 * s ^ 2) / s := by
    intro s
    rw [d1_real]
    show (Real.log (1 / 100) + ((0 : ℝ) - 0 + 0.5 * s ^ 2) * 1) / (s * Real.sqrt 1) = _
    rw [Real.sqrt_one]
    ring_nf
  have deepCall_Price : ∀ (s : ℝ), deepCall.Price realMath s
        = CND realMath (deepCall.d1 realMath s) - 100 * CND realMath (deepCall.d2 realMath s) := by
    intro s
    rw [Price_call _ _ rfl]
    show (1 : ℝ) * Real.exp (-0 * 1) * _ - 100 * Real.exp (-0 * 1) * _ = _
    simp
  have deepCall_IVDivisor : ∀ (s : ℝ),
      deepCall.IVDivisor realMath s = CND realMath (deepCall.d1 realMath s) := by
    intro s
    show (1 : ℝ) * Real.exp (-0 * 1) * Real.sqrt 1 * _ = _
    simp
  have deepCall_Vega : ∀ (s : ℝ),
      100 * deepCall.Vega realMath s = PD realMath (deepCall.d1 realMath s) := by
    intro s
    rw [Vega_real]
    show (1 : ℝ) * Real.exp (-0 * 1) * Real.sqrt 1 * _ = _
    simp
  have deepCall_DerivativePrice : deepCall.DerivativePrice = deepCall.Price realMath 3 :=
    rfl
  -- On `[2, 4]` the value `d1` of the deep call stays in `[-2, 2]`.
  have deepCall_d1_sq : ∀ (s : ℝ), 2 ≤ s → s ≤ 4 → deepCall.d1 realMath s ^ 2 ≤ 4 := by
    intro s h2 h4
    have hlo := log_hundredth_ge
    have hhi := log_hundredth_le
    have hs : 0 < s := by linarith
    rw [deepCall_d1, div_pow, div_le_iff₀ (by positivity)]
    have ha : -(2 * s) ≤ Real.log (1 / 100) + 0.5 * s ^ 2 := by nlinarith
    have hb : Real.log (1 / 100) + 0.5 * s ^ 2 ≤ 2 * s := by nlinarith
    nlinarith
  -- From the volatility 4 on, `d1` of the deep call is nonnegative.
  have deepCall_d1_nonneg : ∀ (s : ℝ), 4 ≤ s → 0 ≤ deepCall.d1 realMath s := by
    intro s h4
    have hlo := log_hundredth_ge
    rw [deepCall_d1]
    apply div_nonneg _ (by linarith)
    nlinarith
  -- At the initial guess, `d1` of the deep call is below `-8`.
  have deepCall_d1_start : deepCall.d1 realMath 0.25 ≤ -8 := by
    have hhi := log_hundredth_le
    rw [deepCall_d1, div_le_iff₀ (by norm_num)]
    norm_num
    linarith
  have deepCall_pos : 0 < deepCall.UnderlyingPrice ∧ 0 < deepCall.StrikePrice ∧ 0 < deepCall.TimeToMaturity := by
    refine ⟨?_, ?_, ?_⟩
    · show (0 : ℝ) < 1
      norm_num
    · show (0 : ℝ) < 100
      norm_num
    · show (0 : ℝ) < 1
      norm_num
  have deepCall_vega_ge : ∀ (s : ℝ), 2 ≤ s → s ≤ 4 → 1 / 27 ≤ 100 * deepCall.Vega realMath s := by
    intro s h2 h4
    rw [deepCall_Vega]
    exact PD_ge _ (deepCall_d1_sq s h2 h4)
  -- From the volatility 4 on, the deep call is worth at least 1/27 more than
  -- at the volatility 3.
  have deepCall_gap_hi : ∀ (s : ℝ), 4 ≤ s →
      1 / 27 ≤ deepCall.Price realMath s - deepCall.Price realMath 3 := by
    intro s h4
    obtain ⟨hS, hK, hT⟩ := deepCall_pos
    have h34 := Price_sub_ge deepCall hS hK hT 3 4 (1 / 27) (by norm_num) (by norm_num)
      (fun x hx => deepCall_vega_ge x (by linarith [hx.1]) hx.2)
    have hmono := (Price_strictMonoOn deepCall hS hK hT).monotoneOn
      (show (4 : ℝ) ∈ Ioi 0 by norm_num [mem_Ioi]) (show s ∈ Ioi 0 by rw [mem_Ioi]; linarith) h4
    have hmono' : deepCall.Price realMath 4 ≤ deepCall.Price realMath s := hmono
    linarith
  -- At the initial guess the deep call is worth at least 1/27 less than at
  -- the volatility 3.
  have deepCall_gap_lo : 1 / 27 ≤ deepCall.Price realMath 3 - deepCall.Price realMath 0.25 := by
    obtain ⟨hS, hK, hT⟩ := deepCall_pos
    have h23 := Price_sub_ge deepCall hS hK hT 2 3 (1 / 27) (by norm_num) (by norm_num)
      (fun x hx => deepCall_vega_ge x hx.1 (by linarith [hx.2]))
    have hmono := (Price_strictMonoOn deepCall hS hK hT).monotoneOn
      (show (0.25 : ℝ) ∈ Ioi 0 by norm_num [mem_Ioi]) (show (2 : ℝ) ∈ Ioi 0 by norm_num [mem_Ioi])
      (show (0.25 : ℝ) ≤ 2 by norm_num)
    have hmono' : deepCall.Price realMath 0.25 ≤ deepCall.Price realMath 2 := hmono
    linarith
  have exp_neg_32_le : Real.exp (-32) ≤ 1 / 2 ^ 32 := by
    have h1 : (2 : ℝ) ≤ Real.exp 1 := by
      have := Real.exp_one_gt_d9
      linarith
    have e : Real.exp 32 = Real.exp 1 ^ 32 := by rw [Real.exp_one_pow]; norm_num
    have h32 : (2 : ℝ) ^ 32 ≤ Real.exp 32 := by
      rw [e]
      exact pow_le_pow_left₀ (by norm_num) h1 32
    rw [Real.exp_neg, one_div]
    exact inv_anti₀ (by positivity) h32
  -- The divisor of the first update of the deep call is positive and tiny.
  have deepCall_divisor_start : 0 < deepCall.IVDivisor realMath 0.25
        ∧ deepCall.IVDivisor realMath 0.25 ≤ 1 / 2 ^ 33 := by
    rw [deepCall_IVDivisor]
    refine ⟨CND_pos _, ?_⟩
    have h1 : CND realMath (deepCall.d1 realMath 0.25) ≤ CND realMath (-8) :=
      CND_strictMono.monotone deepCall_d1_start
    have h2 := CND_neg_le 8 (by norm_num)
    have h3 : Real.exp (-(8 : ℝ) ^ 2 / 2) = Real.exp (-32) := by norm_num
    rw [h3] at h2
    have h4 := exp_neg_32_le
    calc CND realMath (deepCall.d1 realMath 0.25) ≤ 0.5 * Real.exp (-32) := h1.trans h2
      _ ≤ 0.5 * (1 / 2 ^ 32) := by linarith
      _ = 1 / 2 ^ 33 := by norm_num
  -- The first update throws the deep call's volatility beyond 201802.
  have deepCall_iterate_one : 201802 ≤ deepCall.iterate realMath 1 := by
    obtain ⟨hD0, hD⟩ := deepCall_divisor_start
    have hgap := deepCall_gap_lo
    have hstep : deepCall.iterate realMath 1
        = 0.25 + (deepCall.Price realMath 3 - deepCall.Price realMath 0.25)
            / deepCall.IVDivisor realMath 0.25 := by
      show (0.25 : ℝ) - (deepCall.Price realMath 0.25 - deepCall.DerivativePrice)
            / deepCall.IVDivisor realMath 0.25 = _
      rw [deepCall_DerivativePrice]
      ring
    rw [hstep]
    have hq : (201802 : ℝ) ≤ (deepCall.Price realMath 3 - deepCall.Price realMath 0.25)
        / deepCall.IVDivisor realMath 0.25 := by
      rw [le_div_iff₀ hD0]
      calc 201802 * deepCall.IVDivisor realMath 0.25 ≤ 201802 * (1 / 2 ^ 33) :=
            mul_le_mul_of_nonneg_left hD (by norm_num)
        _ ≤ 1 / 27 := by norm_num
        _ ≤ _ := hgap
    linarith
  -- From the volatility 4 on, one update lowers the deep call's volatility by
  -- at most 202.
  have deepCall_step : ∀ (s : ℝ), 4 ≤ s →
      (deepCall.Price realMath s - deepCall.DerivativePrice) / deepCall.IVDivisor realMath s
        ≤ 202 := by
    intro s h4
    have hD : 0.5 ≤ deepCall.IVDivisor realMath s := by
      rw [deepCall_IVDivisor]
      exact CND_ge_half _ (deepCall_d1_nonneg s h4)
    have hP : deepCall.Price realMath s ≤ 1 := by
      rw [deepCall_Price]
      have := CND_le_one (deepCall.d1 realMath s)
      have := CND_nonneg (deepCall.d2 realMath s)
      linarith
    have hP3 : -100 ≤ deepCall.Price realMath 3 := by
      rw [deepCall_Price]
      have := CND_nonneg (deepCall.d1 realMath 3)
      have := CND_le_one (deepCall.d2 realMath 3)
      linarith
    rw [deepCall_DerivativePrice, div_le_iff₀ (by linarith)]
    linarith
  -- After the first update the iterates of the deep call stay above 4 up to
  -- the cap of the loop.
  have deepCall_iterate_ge : ∀ (n : Nat), n ≤ 999 →
      4 + 202 * ((999 : ℝ) - n) ≤ deepCall.iterate realMath (n + 1) := by
    intro n hn
    induction n with
    | zero =>
      have := deepCall_iterate_one
      norm_num
      linarith
    | succ n ih =>
      have ih' := ih (by omega)
      have hn' : (n : ℝ) + 1 ≤ 999 := by exact_mod_cast hn
      have h4 : 4 ≤ deepCall.iterate realMath (n + 1) := by nlinarith
      have hstep := deepCall_step _ h4
      have hrec : deepCall.iterate realMath (n + 1 + 1)
          = deepCall.iterate realMath (n + 1)
            - (deepCall.Price realMath (deepCall.iterate realMath (n + 1))
                - deepCall.DerivativePrice)
              / deepCall.IVDivisor realMath (deepCall.iterate realMath (n + 1)) := rfl
      rw [hrec]
      push_cast
      linarith
  -- No iterate of the deep call meets the stopping test of the loop.
  have deepCall_miss : ∀ (n : Nat), n ≤ 1000 →
      ¬ |deepCall.Price realMath (deepCall.iterate realMath n) - deepCall.DerivativePrice|
          < 1e-8 := by
    intro n hn
    rw [deepCall_DerivativePrice, not_lt]
    cases n with
    | zero =>
      have h := deepCall_gap_lo
      have e : deepCall.iterate realMath 0 = 0.25 := rfl
      rw [e, abs_sub_comm]
      refine le_trans ?_ (le_abs_self _)
      norm_num
      linarith
    | succ n =>
      have hge := deepCall_iterate_ge n (by omega)
      have hn' : (n : ℝ) ≤ 999 := by exact_mod_cast (by omega : n ≤ 999)
      have h := deepCall_gap_hi (deepCall.iterate realMath (n + 1)) (by nlinarith)
      refine le_trans ?_ (le_abs_self _)
      norm_num
      linarith
  have deepCall_IV : deepCall.IV realMath = deepCall.iterate realMath 1000 := by
    rw [IV_eq_IVLoop, IVLoop_miss realMath deepCall 1e-8 1000 0
      (fun i hi => by simpa using deepCall_miss i (by omega))]
  exact ⟨deepCall_pos, deepCall_DerivativePrice, deepCall_miss, deepCall_IV⟩

/-! ## The program over float64 values -/

/-- Values of the program over float64 values (rounding left aside).
On `farCall`, at every volatility in `(0, 0.25]`, `d1` and `d2` lie below
`-39.875`, where `math.Erfc` and `math.Exp` return exactly 0: the price, the
divisor of the loop of `IV`, `Gamma` and `Vega` are all exactly 0. On
`flatContract` at the volatility 0 the method `d1` divides zero by zero, and
the NaN reaches the divisor of the loop, `Delta` and `Rho`. -/
theorem float_law :
    (∀ s : ℝ, 0 < s → s ≤ 0.25 →
      BlackScholes.Price floatMath farCall (F64.num s) = F64.num 0
      ∧ BlackScholes.IVDivisor floatMath farCall (F64.num s) = F64.num 0
      ∧ BlackScholes.Gamma floatMath farCall (F64.num s) = F64.num 0
      ∧ BlackScholes.Vega floatMath farCall (F64.num s) = F64.num 0)
    ∧ (BlackScholes.IVDivisor floatMath (flatContract true) (F64.num 0) = F64.nan
      ∧ BlackScholes.Delta floatMath (flatContract true) (F64.num 0)
          - BlackScholes.Delta floatMath (flatContract false) (F64.num 0) = F64.nan
      ∧ BlackScholes.Rho floatMath (flatContract true) (F64.num 0)
          - BlackScholes.Rho floatMath (flatContract false) (F64.num 0) = F64.nan)
    ∧ floatMath.Exp (-F64.num 0 * F64.num 1) = F64.num 1 := by
  -- the arithmetic of finite values
  have hdiv : ∀ a b : ℝ, b ≠ 0 → F64.num a / F64.num b = F64.num (a / b) :=
    fun a b h => if_neg h
  have hdiv0 : ∀ a b : ℝ, a = 0 → b = 0 → F64.num a / F64.num b = F64.nan := by
    intro a b ha hb
    subst ha hb
    show (if (0 : ℝ) = 0 then F64.signed 0 F64.posInf F64.negInf else _) = _
    rw [if_pos rfl]
    show (if (0 : ℝ) < 0 then F64.posInf else if (0 : ℝ) < 0 then F64.negInf else F64.nan) = _
    rw [if_neg (lt_irrefl _), if_neg (lt_irrefl _)]
  have hlog : ∀ x : ℝ, 0 < x → floatMath.Log (F64.num x) = F64.num (Real.log x) := by
    intro x hx
    show (if x < 0 then F64.nan else if x = 0 then F64.negInf else F64.num (Real.log x)) = _
    rw [if_neg (not_lt.2 hx.le), if_neg hx.ne']
  have hsqrt : ∀ x : ℝ, 0 ≤ x → floatMath.Sqrt (F64.num x) = F64.num (Real.sqrt x) := by
    intro x hx
    show (if x < 0 then F64.nan else F64.num (Real.sqrt x)) = _
    rw [if_neg (not_lt.2 hx)]
  have hpow : ∀ x : ℝ, floatMath.Pow (F64.num x) 2 = F64.num (x * x) := by
    intro x
    show (if (2 : ℝ) = 2 then F64.num x * F64.num x else _) = _
    rw [if_pos rfl]
    rfl
  have hexp0 : floatMath.Exp (F64.num 0) = F64.num 1 := by
    show (if (0 : ℝ) < -7.45133219101941108420e+02 then F64.num 0
      else if 7.09782712893383973096e+02 < (0 : ℝ) then F64.posInf
      else F64.num (Real.exp 0)) = _
    rw [if_neg (by norm_num), if_neg (by norm_num), Real.exp_zero]
  have hexpU : ∀ x : ℝ, x < -746 → floatMath.Exp (F64.num x) = F64.num 0 := by
    intro x hx
    show (if x < -7.45133219101941108420e+02 then F64.num 0
      else if 7.09782712893383973096e+02 < x then F64.posInf
      else F64.num (Real.exp x)) = _
    rw [if_pos (by norm_num at hx ⊢; linarith)]
  have herfc : ∀ x : ℝ, 28 ≤ x → floatMath.Erfc (F64.num x) = F64.num 0 := by
    intro x hx
    show (if 28 ≤ x then F64.num 0 else if x < -6 then F64.num 2 else F64.num (Erfc x)) = _
    rw [if_pos hx]
  have hL : Real.log (1 / 100000) ≤ -10 := by
    rw [Real.log_le_iff_le_exp (by norm_num)]
    have h1 : Real.exp 1 ≤ 3 := by
      have := Real.exp_one_lt_d9
      linarith
    have e : Real.exp 10 = Real.exp 1 ^ 10 := by rw [Real.exp_one_pow]; norm_num
    have h10 : Real.exp 10 ≤ 100000 := by
      rw [e]
      calc Real.exp 1 ^ 10 ≤ 3 ^ 10 := pow_le_pow_left₀ (Real.exp_pos 1).le h1 10
        _ ≤ 100000 := by norm_num
    rw [Real.exp_neg, one_div]
    exact inv_anti₀ (Real.exp_pos 10) h10
  have hsqrt2 : Real.sqrt 2 ≤ 1.42 := by
    rw [Real.sqrt_le_left (by norm_num)]
    norm_num
  have hsqrt2pos : (0 : ℝ) < Real.sqrt 2 := Real.sqrt_pos.2 (by norm_num)
  have hexpq : floatMath.Exp (-F64.num 0 * F64.num 1) = F64.num 1 := by
    show floatMath.Exp (F64.num (-0 * 1)) = _
    rw [show (-0 * 1 : ℝ) = 0 by norm_num, hexp0]
  refine ⟨?_, ?_, hexpq⟩
  · intro s hs hs'
    have hden : s * Real.sqrt 1 ≠ 0 := by
      rw [Real.sqrt_one, mul_one]
      exact hs.ne'
    have hden1 : s * Real.sqrt 1 = s := by rw [Real.sqrt_one, mul_one]
    -- `CND` and `PD` underflow to zero below `-39.875`
    have hCND : ∀ Y : ℝ, Y ≤ -39.875 → CND floatMath (F64.num Y) = F64.num 0 := by
      intro Y hY
      show (0.5 : F64) * floatMath.Erfc (F64.num (-Y) / F64.num (Real.sqrt 2)) = _
      rw [hdiv _ _ hsqrt2pos.ne', herfc _ (by rw [le_div_iff₀ hsqrt2pos]; nlinarith)]
      show F64.num (0.5 * 0) = _
      rw [mul_zero]
    have hPD : ∀ Y : ℝ, Y ≤ -39.875 → PD floatMath (F64.num Y) = F64.num 0 := by
      intro Y hY
      show (F64.num 1 / floatMath.Sqrt (F64.num (2 * Real.pi)))
          * floatMath.Exp (-0.5 * floatMath.Pow (F64.num Y) 2) = _
      rw [hsqrt _ (by positivity), hdiv _ _ (Real.sqrt_pos.2 (by positivity)).ne', hpow]
      show F64.num (1 / Real.sqrt (2 * Real.pi)) * floatMath.Exp (F64.num (-0.5 * (Y * Y))) = _
      rw [hexpU _ (by nlinarith)]
      show F64.num (1 / Real.sqrt (2 * Real.pi) * 0) = _
      rw [mul_zero]
    -- `d1` and `d2` are finite and below `-39.875`
    obtain ⟨X, hd1, hX⟩ : ∃ X : ℝ, BlackScholes.d1 floatMath farCall (F64.num s) = F64.num X
        ∧ X ≤ -39.875 := by
      refine ⟨(Real.log (1 / 100000) + (0 - 0 + 0.5 * (s * s)) * 1) / (s * Real.sqrt 1), ?_, ?_⟩
      · show (floatMath.Log (F64.num 1 / F64.num 100000)
            + (F64.num 0 - F64.num 0 + (0.5 : F64) * floatMath.Pow (F64.num s) 2) * F64.num 1)
            / (F64.num s * floatMath.Sqrt (F64.num 1)) = _
        rw [hdiv 1 100000 (by norm_num), hlog _ (by norm_num), hpow, hsqrt 1 (by norm_num)]
        exact hdiv _ _ hden
      · rw [hden1, div_le_iff₀ hs]
        nlinarith
    have hd2 : BlackScholes.d2 floatMath farCall (F64.num s) = F64.num (X - s) := by
      show BlackScholes.d1 floatMath farCall (F64.num s)
        - F64.num s * floatMath.Sqrt (F64.num 1) = _
      rw [hd1, hsqrt 1 (by norm_num)]
      show F64.num (X - s * Real.sqrt 1) = _
      rw [hden1]
    refine ⟨?_, ?_, ?_, ?_⟩
    · show F64.num 1 * floatMath.Exp (-F64.num 0 * F64.num 1)
          * CND floatMath (BlackScholes.d1 floatMath farCall (F64.num s))
        - F64.num 100000 * floatMath.Exp (-F64.num 0 * F64.num 1)
          * CND floatMath (BlackScholes.d2 floatMath farCall (F64.num s)) = _
      rw [hd1, hd2, hexpq, hCND X hX, hCND (X - s) (by linarith)]
      show F64.num (1 * 1 * 0 - 100000 * 1 * 0) = _
      norm_num
    · show F64.num 1 * floatMath.Exp (-F64.num 0 * F64.num 1) * floatMath.Sqrt (F64.num 1)
          * CND floatMath (BlackScholes.d1 floatMath farCall (F64.num s)) = _
      rw [hd1, hexpq, hCND X hX, hsqrt 1 (by norm_num)]
      show F64.num (1 * 1 * Real.sqrt 1 * 0) = _
      rw [mul_zero]
    · show (PD floatMath (BlackScholes.d1 floatMath farCall (F64.num s))
            * floatMath.Exp (-F64.num 0 * F64.num 1))
          / (F64.num 1 * F64.num s * floatMath.Sqrt (F64.num 1)) = _
      rw [hd1, hexpq, hPD X hX, hsqrt 1 (by norm_num)]
      show F64.num (0 * 1) / F64.num (1 * s * Real.sqrt 1) = _
      rw [hdiv _ _ (by rw [one_mul]; exact hden)]
      norm_num
    · show F64.num 1 * floatMath.Sqrt (F64.num 1)
            * PD floatMath (BlackScholes.d1 floatMath farCall (F64.num s))
            * floatMath.Exp (-F64.num 0 * F64.num 1) / (100.0 : F64) = _
      rw [hd1, hexpq, hPD X hX, hsqrt 1 (by norm_num)]
      show F64.num (1 * Real.sqrt 1 * 0 * 1) / F64.num 100.0 = _
      rw [hdiv _ _ (by norm_num)]
      norm_num
  · -- at the volatility 0 the method `d1` divides zero by zero
    have hd1 : ∀ c : Bool, BlackScholes.d1 floatMath (flatContract c) (F64.num 0) = F64.nan := by
      intro c
      show (floatMath.Log (F64.num 100 / F64.num 100)
          + (F64.num 0 - F64.num 0 + (0.5 : F64) * floatMath.Pow (F64.num 0) 2) * F64.num 1)
          / (F64.num 0 * floatMath.Sqrt (F64.num 1)) = _
      rw [hdiv 100 100 (by norm_num), hlog _ (by norm_num), hpow, hsqrt 1 (by norm_num)]
      show F64.num (Real.log (100 / 100) + (0 - 0 + 0.5 * (0 * 0)) * 1)
          / F64.num (0 * Real.sqrt 1) = _
      exact hdiv0 _ _ (by rw [div_self (by norm_num), Real.log_one]; norm_num) (zero_mul _)
    have hd2 : ∀ c : Bool, BlackScholes.d2 floatMath (flatContract c) (F64.num 0) = F64.nan := by
      intro c
      show BlackScholes.d1 floatMath (flatContract c) (F64.num 0)
        - F64.num 0 * floatMath.Sqrt (F64.num 1) = _
      rw [hd1, hsqrt 1 (by norm_num)]
      rfl
    have hCND : CND floatMath F64.nan = F64.nan := rfl
    have hCNDneg : CND floatMath (-F64.nan) = F64.nan := rfl
    refine ⟨?_, ?_, ?_⟩
    · show F64.num 100 * floatMath.Exp (-F64.num 0 * F64.num 1) * floatMath.Sqrt (F64.num 1)
          * CND floatMath (BlackScholes.d1 floatMath (flatContract true) (F64.num 0)) = _
      rw [hd1, hCND, hexpq, hsqrt 1 (by norm_num)]
      rfl
    · show floatMath.Exp (-F64.num 0 * F64.num 1)
            * CND floatMath (BlackScholes.d1 floatMath (flatContract true) (F64.num 0))
          - -floatMath.Exp (-F64.num 0 * F64.num 1)
            * CND floatMath (-BlackScholes.d1 floatMath (flatContract false) (F64.num 0)) = _
      rw [hd1, hd1, hCND, hCNDneg, hexpq]
      rfl
    · show F64.num 100 * F64.num 1 * floatMath.Exp (-F64.num 0 * F64.num 1)
            * CND floatMath (BlackScholes.d2 floatMath (flatContract true) (F64.num 0))
            / (100.0 : F64)
          - -F64.num 100 * F64.num 1 * floatMath.Exp (-F64.num 0 * F64.num 1)
            * CND floatMath (-BlackScholes.d2 floatMath (flatContract false) (F64.num 0))
            / (100.0 : F64) = _
      rw [hd2, hd2, hCND, hCNDneg, hexpq]
      rfl

/-! ## A damped Newton iteration -/

/-- C1. Put-call parity: for `S, K, T > 0`, any `r`, `q` and `sigma > 0`, the
price of the call minus the price of the put (two contracts that differ only
in `IsCall`; the observed prices play no part) is
`S * exp (-q*T) - K * exp (-r*T)`. -/
theorem put_call_parity (P P' S K T r q sigma : ℝ)
    (_hS : 0 < S) (_hK : 0 < K) (_hT : 0 < T) (_hsigma : 0 < sigma) :
    BlackScholes.Price realMath ⟨P, S, K, T, r, q, true⟩ sigma
        - BlackScholes.Price realMath ⟨P', S, K, T, r, q, false⟩ sigma
      = S * Real.exp (-q * T) - K * Real.exp (-r * T) := by
  obtain ⟨_, _, _, _, _, _, CND_neg, _⟩ := normal_law
  have e1 : BlackScholes.d1 realMath ⟨P', S, K, T, r, q, false⟩ sigma
      = BlackScholes.d1 realMath ⟨P, S, K, T, r, q, true⟩ sigma := rfl
  have e2 : BlackScholes.d2 realMath ⟨P', S, K, T, r, q, false⟩ sigma
      = BlackScholes.d2 realMath ⟨P, S, K, T, r, q, true⟩ sigma := rfl
  simp only [BlackScholes.Price, if_true, Bool.false_eq_true, if_false, e1, e2, CND_neg]
  ring

/-- The parity of C1 at the contract of the tests and its implied volatility. -/
theorem put_call_parity_witness :
    BlackScholes.Price realMath ⟨1.2, 112.5, 190, 0.21095890410958903, 0.5, 0, true⟩
          0.616449844803655
        - BlackScholes.Price realMath ⟨1.2, 112.5, 190, 0.21095890410958903, 0.5, 0, false⟩
          0.616449844803655
      = 112.5 * Real.exp (-0 * 0.21095890410958903)
        - 190 * Real.exp (-0.5 * 0.21095890410958903) :=
  put_call_parity 1.2 1.2 112.5 190 0.21095890410958903 0.5 0 0.616449844803655
    (by norm_num) (by norm_num) (by norm_num) (by norm_num)

/-- C3. Stopping rule of `IV`, with `s_n = iterate n`, that is `s_0 = 0.25` and
`s_(n+1) = s_n - (Price s_n - DerivativePrice) / IVDivisor s_n`: `IV` returns
`s_n` for the least `n < 1000` whose price is within `1e-8` of
`DerivativePrice`, returns `s_1000` when there is no such `n`, and whenever
some `n < 1000` meets the test the returned value prices the option within
`1e-8` of `DerivativePrice`. -/
theorem IV_stopping_rule (b : BlackScholes ℝ) :
    b.iterate realMath 0 = 0.25
    ∧ (∀ n, b.iterate realMath (n + 1)
        = b.iterate realMath n
          - (b.Price realMath (b.iterate realMath n) - b.DerivativePrice)
            / b.IVDivisor realMath (b.iterate realMath n))
    ∧ (∀ n, n < 1000 →
        |b.Price realMath (b.iterate realMath n) - b.DerivativePrice| < 1e-8 →
        (∀ j, j < n →
          ¬ |b.Price realMath (b.iterate realMath j) - b.DerivativePrice| < 1e-8) →
        b.IV realMath = b.iterate realMath n)
    ∧ ((∀ n, n < 1000 →
          ¬ |b.Price realMath (b.iterate realMath n) - b.DerivativePrice| < 1e-8) →
        b.IV realMath = b.iterate realMath 1000)
    ∧ ((∃ n, n < 1000
          ∧ |b.Price realMath (b.iterate realMath n) - b.DerivativePrice| < 1e-8) →
        |b.Price realMath (b.IV realMath) - b.DerivativePrice| < 1e-8) := by
  refine ⟨rfl, fun _ => rfl, ?_, ?_, ?_⟩
  · intro n hn hit miss
    have h := IVLoop_hit realMath b 1e-8 1000 0 n hn (by simpa using hit)
      (fun i hi => by simpa using miss i hi)
    rw [IV_eq_IVLoop, h, Nat.zero_add]
  · intro miss
    rw [IV_eq_IVLoop, IVLoop_miss realMath b 1e-8 1000 0 (fun i hi => by simpa using miss i hi)]
  · rintro ⟨n, hn, hc⟩
    rcases IV_cases realMath b with ⟨n0, _, hIV, hhit, _⟩ | ⟨_, hmiss⟩
    · rw [hIV]; exact hhit
    · exact absurd hc (hmiss n hn)

/-- Both exits of the loop of C3 are taken: the at-the-money put priced at
the volatility 0.25 stops at `s_0`, and the deep out-of-the-money call priced
at the volatility 3 runs to the cap and returns `s_1000`. -/
theorem IV_stopping_rule_witness :
    (atTheMoney ((atTheMoney 0 false).Price realMath 0.25) false).IV realMath
        = (atTheMoney ((atTheMoney 0 false).Price realMath 0.25) false).iterate realMath 0
      ∧ deepCall.IV realMath = deepCall.iterate realMath 1000 := by
  obtain ⟨_, _, deepCall_miss, _⟩ := deepCall_law
  exact
  ⟨(IV_stopping_rule (atTheMoney ((atTheMoney 0 false).Price realMath 0.25) false)).2.2.1 0
      (by norm_num)
      (by
        have e : (atTheMoney ((atTheMoney 0 false).Price realMath 0.25) false).iterate
            realMath 0 = 0.25 := rfl
        have e' : (atTheMoney ((atTheMoney 0 false).Price realMath 0.25) false).DerivativePrice
            = (atTheMoney ((atTheMoney 0 false).Price realMath 0.25) false).Price realMath
                0.25 := rfl
        rw [e, e', sub_self, abs_zero]
        norm_num)
      (fun j hj => absurd hj (Nat.not_lt_zero j)),
    (IV_stopping_rule deepCall).2.2.2.1 (fun n hn => deepCall_miss n hn.le)⟩

/-- C4, the code at a failing input: on the at-the-money call (spot 100,
strike 100, one year, no interest, no dividend, observed price 10) at the
initial guess 0.25, the divisor of the update in `IV` is not `100 * Vega 0.25`
but larger. -/
theorem IVDivisor_ne_vega :
    100 * (atTheMoney 10 true).Vega realMath 0.25
      < (atTheMoney 10 true).IVDivisor realMath 0.25 := by
  obtain ⟨d1_real, _, _, _, _, _, Vega_lt_IVDivisor, _⟩ := pricer_law
  apply Vega_lt_IVDivisor
  · show (0 : ℝ) < 100
    norm_num
  · show (0 : ℝ) < 1
    norm_num
  · rw [d1_real]
    show 0 ≤ (Real.log (100 / 100) + ((0 : ℝ) - 0 + 0.5 * 0.25 ^ 2) * 1) / (0.25 * Real.sqrt 1)
    rw [div_self (by norm_num : (100 : ℝ) ≠ 0), Real.log_one, Real.sqrt_one]
    norm_num

/-- C5, refuted as stated, over float64 values: `farCall` has `S, K, T > 0` and
`0 < 0.2 < 0.25`, and its price at the volatility 0.2 is not below its price
at 0.25 (both are exactly 0: `CND` has underflowed). -/
theorem Price_increasing_fails :
    (0 : F64) < farCall.UnderlyingPrice ∧ (0 : F64) < farCall.StrikePrice
      ∧ (0 : F64) < farCall.TimeToMaturity
      ∧ (0 : F64) < F64.num 0.2 ∧ F64.num 0.2 < F64.num 0.25
      ∧ ¬ farCall.Price floatMath (F64.num 0.2) < farCall.Price floatMath (F64.num 0.25) := by
  obtain ⟨hfar, _⟩ := float_law
  have hpos : ∀ x y : ℝ, x < y → F64.num x < F64.num y := fun _ _ h => h
  refine ⟨hpos 0 1 (by norm_num), hpos 0 100000 (by norm_num), hpos 0 1 (by norm_num),
    hpos 0 0.2 (by norm_num), hpos 0.2 0.25 (by norm_num), ?_⟩
  rw [(hfar 0.2 (by norm_num) (by norm_num)).1, (hfar 0.25 (by norm_num) le_rfl).1]
  exact lt_irrefl (0 : ℝ)

/-- C5, amended: monotonicity in the volatility in exact real arithmetic. For a
contract with `S, K, T > 0`, call or put, and `0 < sigma1 < sigma2`,
`Price sigma1 < Price sigma2`. -/
theorem Price_increasing (b : BlackScholes ℝ)
    (hS : 0 < b.UnderlyingPrice) (hK : 0 < b.StrikePrice) (hT : 0 < b.TimeToMaturity)
    (sigma1 sigma2 : ℝ) (h1 : 0 < sigma1) (h12 : sigma1 < sigma2) :
    b.Price realMath sigma1 < b.Price realMath sigma2 := by
  obtain ⟨_, _, _, _, Price_strictMonoOn, _⟩ := pricer_law
  exact Price_strictMonoOn b hS hK hT (mem_Ioi.2 h1) (mem_Ioi.2 (h1.trans h12)) h12

/-- The monotonicity of C5 on the contract of the tests, between the initial
guess and the implied volatility the tests expect. -/
theorem Price_increasing_witness :
    fixture.Price realMath 0.25 < fixture.Price realMath 0.616449844803655 :=
  Price_increasing fixture (by norm_num [fixture]) (by norm_num [fixture])
    (by norm_num [fixture]) 0.25 0.616449844803655 (by norm_num) (by norm_num)

/-- C6. Vega is the sensitivity of the price to the volatility: for a contract
with `S, K, T > 0`, call or put, and `sigma > 0`, the price is differentiable
in the volatility at `sigma`, with derivative `100 * Vega sigma`. -/
theorem Price_deriv_eq_vega (b : BlackScholes ℝ)
    (hS : 0 < b.UnderlyingPrice) (hK : 0 < b.StrikePrice) (hT : 0 < b.TimeToMaturity)
    (sigma : ℝ) (hsigma : 0 < sigma) :
    DifferentiableAt ℝ (fun s => b.Price realMath s) sigma
      ∧ deriv (fun s => b.Price realMath s) sigma = 100 * b.Vega realMath sigma := by
  obtain ⟨_, _, _, Price_hasDerivAt, _⟩ := pricer_law
  exact ⟨(Price_hasDerivAt b sigma hsigma.ne' hS hK hT).differentiableAt,
    (Price_hasDerivAt b sigma hsigma.ne' hS hK hT).deriv⟩

/-- The derivative of C6 on the contract of the tests at the implied
volatility the tests expect. -/
theorem Price_deriv_eq_vega_witness :
    DifferentiableAt ℝ (fun s => fixture.Price realMath s) 0.616449844803655
      ∧ deriv (fun s => fixture.Price realMath s) 0.616449844803655
          = 100 * fixture.Vega realMath 0.616449844803655 :=
  Price_deriv_eq_vega fixture (by norm_num [fixture]) (by norm_num [fixture])
    (by norm_num [fixture]) 0.616449844803655 (by norm_num)

/-- C7. `Greeks` resolves the implied volatility once and evaluates the five
formulas at it: with `v = b.IV`, the result has `Delta = b.Delta v`,
`Gamma = b.Gamma v`, `Theta = b.Theta v`, `Rho = b.Rho v`, `Vega = b.Vega v`. -/
theorem Greeks_at_IV {α : Type} [LinearOrderedField α] (m : GoMath α) (b : BlackScholes α) :
    (b.Greeks m).Delta = b.Delta m (b.IV m)
      ∧ (b.Greeks m).Gamma = b.Gamma m (b.IV m)
      ∧ (b.Greeks m).Theta = b.Theta m (b.IV m)
      ∧ (b.Greeks m).Rho = b.Rho m (b.IV m)
      ∧ (b.Greeks m).Vega = b.Vega m (b.IV m) :=
  ⟨rfl, rfl, rfl, rfl, rfl⟩

/-- C8. CND is the cumulative distribution of the density PD: for every real
`x`, `CND x = 0.5 * erfc (-x / sqrt 2)` is the integral of `PD` over
`(-∞, x]`, which is the probability that a standard normal variable is at
most `x`. -/
theorem CND_is_cdf (x : ℝ) :
    CND realMath x = 0.5 * Erfc (-x / Real.sqrt 2)
      ∧ CND realMath x = ∫ t in Iic x, PD realMath t
      ∧ CND realMath x = (ProbabilityTheory.gaussianReal 0 1 (Iic x)).toReal := by
  obtain ⟨PD_real, _, _, CND_eq_integral, _⟩ := normal_law
  refine ⟨rfl, CND_eq_integral x, ?_⟩
  have hpdf : ∀ t : ℝ, ProbabilityTheory.gaussianPDFReal 0 1 t = PD realMath t := by
    intro t
    rw [PD_real, ProbabilityTheory.gaussianPDFReal]
    simp only [NNReal.coe_one, mul_one, sub_zero, one_div]
    congr 2
    ring
  rw [ProbabilityTheory.gaussianReal_apply_eq_integral 0 one_ne_zero,
    ENNReal.toReal_ofReal
      (setIntegral_nonneg measurableSet_Iic
        (fun t _ => ProbabilityTheory.gaussianPDFReal_nonneg 0 1 t))]
  simp only [hpdf]
  exact CND_eq_integral x

/-- C9. Symmetry of the primitives: `CND (-x) = 1 - CND x` and `PD (-x) = PD x`
for every real `x`. -/
theorem primitives_symmetry (x : ℝ) :
    CND realMath (-x) = 1 - CND realMath x ∧ PD realMath (-x) = PD realMath x := by
  obtain ⟨_, _, PD_neg, _, _, _, CND_neg, _⟩ := normal_law
  exact ⟨CND_neg x, PD_neg x⟩

/-- C10. Boundary values of the primitives: `CND 0 = 0.5` and
`PD 0 = 1 / sqrt (2 * pi)`. -/
theorem primitives_at_zero :
    CND realMath 0 = 0.5 ∧ PD realMath 0 = 1 / Real.sqrt (2 * Real.pi) := by
  obtain ⟨PD_real, _, _, _, _, _, _, CND_zero, _⟩ := normal_law
  refine ⟨CND_zero, ?_⟩
  rw [PD_real]
  norm_num

/-! ## The claims, continued -/

/-- C11. `IV` starts from the guess 0.25 and tests it before any update: when
`Price 0.25` is within `1e-8` of `DerivativePrice`, `IV` returns exactly 0.25;
so it does when `DerivativePrice = Price 0.25`. -/
theorem IV_initial_guess (b : BlackScholes ℝ) :
    (|b.Price realMath 0.25 - b.DerivativePrice| < 1e-8 → b.IV realMath = 0.25)
      ∧ (b.DerivativePrice = b.Price realMath 0.25 → b.IV realMath = 0.25) := by
  have key : |b.Price realMath 0.25 - b.DerivativePrice| < 1e-8 → b.IV realMath = 0.25 := by
    intro h
    have h0 := IVLoop_hit realMath b 1e-8 1000 0 0 (by norm_num) h
      (fun i hi => absurd hi (Nat.not_lt_zero i))
    rw [IV_eq_IVLoop, h0]
    rfl
  refine ⟨key, fun h => key ?_⟩
  rw [h, sub_self, abs_zero]
  norm_num

/-- The first exit of C11 on an at-the-money call whose observed price is
`1e-9` above its price at the volatility 0.25. -/
theorem IV_initial_guess_witness :
    (atTheMoney ((atTheMoney 0 true).Price realMath 0.25 + 1e-9) true).IV realMath = 0.25 :=
  (IV_initial_guess (atTheMoney ((atTheMoney 0 true).Price realMath 0.25 + 1e-9) true)).1
    (by
      have e : (atTheMoney ((atTheMoney 0 true).Price realMath 0.25 + 1e-9) true).Price
            realMath 0.25
          - (atTheMoney ((atTheMoney 0 true).Price realMath 0.25 + 1e-9) true).DerivativePrice
          = -1e-9 := by
        show (atTheMoney 0 true).Price realMath 0.25
          - ((atTheMoney 0 true).Price realMath 0.25 + 1e-9) = -1e-9
        ring
      rw [e, abs_neg, abs_of_pos (by norm_num)]
      norm_num)

/-- C12, the code at a failing input: on the contract with spot 100, strike
100, one year to maturity, interest 5% and dividend yield 2%, at the
volatility 0.25, `Theta` of the call minus `Theta` of the put is below
`(q*S*exp (-q*T) - r*K*exp (-r*T)) / 365`. -/
theorem Theta_parity_fails :
    (dividendContract true).Theta realMath 0.25 - (dividendContract false).Theta realMath 0.25
      < (0.02 * 100 * Real.exp (-0.02 * 1) - 0.05 * 100 * Real.exp (-0.05 * 1)) / 365 := by
  obtain ⟨_, PD_pos, _, _, _, _, CND_neg, _, _, _, CND_pos, _⟩ := normal_law
  -- The call branch of `Theta` minus the put branch: the per-day decay of the
  -- parity value, less two terms in the dividend yield that only the put branch
  -- carries.
  have Theta_parity_defect : ∀ (P P' S K T r q s : ℝ),
      BlackScholes.Theta realMath ⟨P, S, K, T, r, q, true⟩ s
          - BlackScholes.Theta realMath ⟨P', S, K, T, r, q, false⟩ s
        = (q * S * Real.exp (-q * T) - r * K * Real.exp (-r * T)) / 365
          - (q * S * Real.exp (-q * T)
                * CND realMath (BlackScholes.d1 realMath ⟨P, S, K, T, r, q, true⟩ s)
              + S * PD realMath (BlackScholes.d1 realMath ⟨P, S, K, T, r, q, true⟩ s) * s
                * (1 - Real.exp (-q * T)) / (2 * Real.sqrt T)) / 365 := by
    intro P P' S K T r q s
    have e1 : BlackScholes.d1 realMath ⟨P', S, K, T, r, q, false⟩ s
        = BlackScholes.d1 realMath ⟨P, S, K, T, r, q, true⟩ s := rfl
    have e2 : BlackScholes.d2 realMath ⟨P', S, K, T, r, q, false⟩ s
        = BlackScholes.d2 realMath ⟨P, S, K, T, r, q, true⟩ s := rfl
    simp only [BlackScholes.Theta, if_true, Bool.false_eq_true, if_false, e1, e2, CND_neg]
    norm_num
    ring
  -- With a positive dividend yield the two terms missing from the call branch
  -- of `Theta` are positive.
  have Theta_defect_pos : ∀ (P S K T r q s : ℝ), 0 < S → 0 < T → 0 < q → 0 < s →
      0 < (q * S * Real.exp (-q * T)
              * CND realMath (BlackScholes.d1 realMath ⟨P, S, K, T, r, q, true⟩ s)
            + S * PD realMath (BlackScholes.d1 realMath ⟨P, S, K, T, r, q, true⟩ s) * s
              * (1 - Real.exp (-q * T)) / (2 * Real.sqrt T)) / 365 := by
    intro P S K T r q s hS hT hq hs
    have hC := CND_pos (BlackScholes.d1 realMath ⟨P, S, K, T, r, q, true⟩ s)
    have hP := PD_pos (BlackScholes.d1 realMath ⟨P, S, K, T, r, q, true⟩ s)
    have hw := Real.sqrt_pos.2 hT
    have he := Real.exp_pos (-q * T)
    have he1 : 0 < 1 - Real.exp (-q * T) := by
      have : Real.exp (-q * T) < 1 := Real.exp_lt_one_iff.2 (by nlinarith)
      linarith
    positivity
  have h := Theta_parity_defect 10 10 100 100 1 0.05 0.02 0.25
  have hp := Theta_defect_pos 10 100 100 1 0.05 0.02 0.25
    (by norm_num) (by norm_num) (by norm_num) (by norm_num)
  show BlackScholes.Theta realMath ⟨10, 100, 100, 1, 0.05, 0.02, true⟩ 0.25
      - BlackScholes.Theta realMath ⟨10, 100, 100, 1, 0.05, 0.02, false⟩ 0.25 < _
  linarith

/-- C13, refuted as stated, over float64 values: `farCall` has `S, K, T > 0` and
its price at the volatility `0.25 > 0` is not positive (it is exactly 0). -/
theorem Price_positive_fails :
    (0 : F64) < farCall.UnderlyingPrice ∧ (0 : F64) < farCall.StrikePrice
      ∧ (0 : F64) < farCall.TimeToMaturity ∧ (0 : F64) < F64.num 0.25
      ∧ farCall.Price floatMath (F64.num 0.25) = F64.num 0
      ∧ ¬ (0 : F64) < farCall.Price floatMath (F64.num 0.25) := by
  obtain ⟨hfar, _⟩ := float_law
  have hpos : ∀ x y : ℝ, x < y → F64.num x < F64.num y := fun _ _ h => h
  have h := (hfar 0.25 (by norm_num) le_rfl).1
  refine ⟨hpos 0 1 (by norm_num), hpos 0 100000 (by norm_num), hpos 0 1 (by norm_num),
    hpos 0 0.25 (by norm_num), h, ?_⟩
  rw [h]
  exact lt_irrefl (0 : ℝ)

/-- C13, amended: the theoretical price is positive in exact real arithmetic.
For a contract with `S, K, T > 0`, call or put, and `sigma > 0`,
`Price sigma > 0`. -/
theorem Price_positive (b : BlackScholes ℝ)
    (hS : 0 < b.UnderlyingPrice) (hK : 0 < b.StrikePrice) (hT : 0 < b.TimeToMaturity)
    (sigma : ℝ) (hsigma : 0 < sigma) :
    0 < b.Price realMath sigma := by
  obtain ⟨_, _, _, _, _, _, _, Price_pos⟩ := pricer_law
  exact Price_pos b sigma hsigma hS hK hT

/-- The positivity of C13 on the put with the parameters of the tests, at the
volatility 0.25. -/
theorem Price_positive_witness :
    0 < BlackScholes.Price realMath
      ⟨1.2, 112.5, 190, 0.21095890410958903, 0.5, 0, false⟩ 0.25 :=
  Price_positive ⟨1.2, 112.5, 190, 0.21095890410958903, 0.5, 0, false⟩
    (by norm_num) (by norm_num) (by norm_num) 0.25 (by norm_num)

/-- C14, refuted as stated, over float64 values: on `farCall`, with `S, T > 0`,
the divisor of the loop of `IV` at its first iteration, `sigma = 0.25`, is
exactly 0; and on `flatContract`, with `S, T > 0`, the divisor at `sigma = 0`
is NaN. Neither is positive. -/
theorem IVDivisor_positive_fails :
    ((0 : F64) < farCall.UnderlyingPrice ∧ (0 : F64) < farCall.TimeToMaturity
      ∧ farCall.IVDivisor floatMath (F64.num 0.25) = F64.num 0
      ∧ ¬ (0 : F64) < farCall.IVDivisor floatMath (F64.num 0.25))
    ∧ ((0 : F64) < (flatContract true).UnderlyingPrice
      ∧ (0 : F64) < (flatContract true).TimeToMaturity
      ∧ (flatContract true).IVDivisor floatMath (F64.num 0) = F64.nan
      ∧ ¬ (0 : F64) < (flatContract true).IVDivisor floatMath (F64.num 0)) := by
  obtain ⟨hfar, ⟨hflat, _⟩, _⟩ := float_law
  have hpos : ∀ x y : ℝ, x < y → F64.num x < F64.num y := fun _ _ h => h
  have h := (hfar 0.25 (by norm_num) le_rfl).2.1
  refine ⟨⟨hpos 0 1 (by norm_num), hpos 0 1 (by norm_num), h, ?_⟩,
    ⟨hpos 0 100 (by norm_num), hpos 0 1 (by norm_num), hflat, ?_⟩⟩
  · rw [h]
    exact lt_irrefl (0 : ℝ)
  · rw [hflat]
    exact id

/-- C14, amended: in exact real arithmetic the update of `IV` never divides by
zero on a valid contract. For `S, K, T > 0` and every real `sigma ≠ 0`, the
method `d1` takes the logarithm of a positive number and divides by a number
other than zero, and the divisor `S * exp (-q*T) * sqrt T * CND (d1 sigma)` of
the loop is positive. -/
theorem IVDivisor_positive (b : BlackScholes ℝ)
    (hS : 0 < b.UnderlyingPrice) (hK : 0 < b.StrikePrice) (hT : 0 < b.TimeToMaturity)
    (sigma : ℝ) (hsigma : sigma ≠ 0) :
    0 < b.UnderlyingPrice / b.StrikePrice
      ∧ sigma * Real.sqrt b.TimeToMaturity ≠ 0
      ∧ b.IVDivisor realMath sigma
        = b.UnderlyingPrice * Real.exp (-b.Dividend * b.TimeToMaturity)
          * Real.sqrt b.TimeToMaturity * CND realMath (b.d1 realMath sigma)
      ∧ 0 < b.IVDivisor realMath sigma := by
  obtain ⟨_, _, _, _, _, _, _, _, _, _, CND_pos, _⟩ := normal_law
  refine ⟨div_pos hS hK, mul_ne_zero hsigma (Real.sqrt_pos.2 hT).ne', rfl, ?_⟩
  show 0 < b.UnderlyingPrice * Real.exp (-b.Dividend * b.TimeToMaturity)
      * Real.sqrt b.TimeToMaturity * CND realMath (b.d1 realMath sigma)
  have := CND_pos (b.d1 realMath sigma)
  have := Real.sqrt_pos.2 hT
  have := Real.exp_pos (-b.Dividend * b.TimeToMaturity)
  positivity

/-- The divisor of C14 on the contract of the tests at the initial guess. -/
theorem IVDivisor_positive_witness :
    0 < fixture.UnderlyingPrice / fixture.StrikePrice
      ∧ 0.25 * Real.sqrt fixture.TimeToMaturity ≠ 0
      ∧ fixture.IVDivisor realMath 0.25
        = fixture.UnderlyingPrice * Real.exp (-fixture.Dividend * fixture.TimeToMaturity)
          * Real.sqrt fixture.TimeToMaturity * CND realMath (fixture.d1 realMath 0.25)
      ∧ 0 < fixture.IVDivisor realMath 0.25 :=
  IVDivisor_positive fixture (by norm_num [fixture]) (by norm_num [fixture])
    (by norm_num [fixture]) 0.25 (by norm_num)

/-- C15, refuted as stated, over float64 values: on `flatContract` at the
volatility 0 the method `d1` is `0 / 0`, so `Delta` of the call minus `Delta`
of the put is NaN, not `exp (-q*T)`, and `Rho` of the call minus `Rho` of the
put is NaN, not `K*T*exp (-r*T)/100`. -/
theorem Delta_Rho_parity_fails :
    (flatContract true).Delta floatMath (F64.num 0)
        - (flatContract false).Delta floatMath (F64.num 0)
      ≠ floatMath.Exp (-F64.num 0 * F64.num 1)
    ∧ (flatContract true).Rho floatMath (F64.num 0)
        - (flatContract false).Rho floatMath (F64.num 0)
      ≠ F64.num 100 * F64.num 1 * floatMath.Exp (-F64.num 0 * F64.num 1) / F64.num 100 := by
  obtain ⟨_, ⟨_, hDelta, hRho⟩, hexp⟩ := float_law
  rw [hDelta, hRho, hexp]
  constructor
  · intro h
    cases h
  · have e : F64.num 100 * F64.num 1 * F64.num 1 / F64.num 100
        = F64.num (100 * 1 * 1 / 100) := if_neg (by norm_num)
    rw [e]
    intro h
    cases h

/-- C15, amended: in exact real arithmetic Delta and Rho are consistent with
put-call parity on valid inputs. For `S, K, T > 0`, all `r, q` and every
`sigma ≠ 0`, the method `d1` takes the logarithm of a positive number and
divides by a number other than zero, `Delta` of the call minus `Delta` of the
put is `exp (-q*T)`, and `Rho` of the call minus `Rho` of the put is
`K * T * exp (-r*T) / 100`. -/
theorem Delta_Rho_parity (P P' S K T r q sigma : ℝ)
    (hS : 0 < S) (hK : 0 < K) (hT : 0 < T) (hsigma : sigma ≠ 0) :
    (0 < S / K ∧ sigma * Real.sqrt T ≠ 0)
      ∧ BlackScholes.Delta realMath ⟨P, S, K, T, r, q, true⟩ sigma
          - BlackScholes.Delta realMath ⟨P', S, K, T, r, q, false⟩ sigma
        = Real.exp (-q * T)
      ∧ BlackScholes.Rho realMath ⟨P, S, K, T, r, q, true⟩ sigma
          - BlackScholes.Rho realMath ⟨P', S, K, T, r, q, false⟩ sigma
        = K * T * Real.exp (-r * T) / 100 := by
  obtain ⟨_, _, _, _, _, _, CND_neg, _⟩ := normal_law
  have e1 : BlackScholes.d1 realMath ⟨P', S, K, T, r, q, false⟩ sigma
      = BlackScholes.d1 realMath ⟨P, S, K, T, r, q, true⟩ sigma := rfl
  have e2 : BlackScholes.d2 realMath ⟨P', S, K, T, r, q, false⟩ sigma
      = BlackScholes.d2 realMath ⟨P, S, K, T, r, q, true⟩ sigma := rfl
  refine ⟨⟨div_pos hS hK, mul_ne_zero hsigma (Real.sqrt_pos.2 hT).ne'⟩, ?_, ?_⟩
  · simp only [BlackScholes.Delta, if_true, Bool.false_eq_true, if_false, e1, CND_neg]
    ring
  · simp only [BlackScholes.Rho, if_true, Bool.false_eq_true, if_false, e2, CND_neg]
    norm_num
    ring

/-- The parity of C15 on the dividend-paying contract (spot 100, strike 100,
one year, interest 5%, dividend yield 2%) at the volatility 0.25. -/
theorem Delta_Rho_parity_witness :
    (dividendContract true).Delta realMath 0.25 - (dividendContract false).Delta realMath 0.25
        = Real.exp (-0.02 * 1)
      ∧ (dividendContract true).Rho realMath 0.25 - (dividendContract false).Rho realMath 0.25
        = 100 * 1 * Real.exp (-0.05 * 1) / 100 :=
  (Delta_Rho_parity 10 10 100 100 1 0.05 0.02 0.25 (by norm_num) (by norm_num) (by norm_num)
    (by norm_num)).2

/-- C16, refuted as stated, over float64 values: on `farCall`, with
`S, T > 0`, at the volatility `0.25 > 0`, neither `Gamma` nor `Vega` is
positive (both are exactly 0: `PD` has underflowed). -/
theorem Vega_Gamma_positive_fails :
    (0 : F64) < farCall.UnderlyingPrice ∧ (0 : F64) < farCall.TimeToMaturity
      ∧ (0 : F64) < F64.num 0.25
      ∧ ¬ (0 : F64) < farCall.Gamma floatMath (F64.num 0.25)
      ∧ ¬ (0 : F64) < farCall.Vega floatMath (F64.num 0.25) := by
  obtain ⟨hfar, _⟩ := float_law
  have hpos : ∀ x y : ℝ, x < y → F64.num x < F64.num y := fun _ _ h => h
  obtain ⟨_, _, hG, hV⟩ := hfar 0.25 (by norm_num) le_rfl
  refine ⟨hpos 0 1 (by norm_num), hpos 0 1 (by norm_num), hpos 0 0.25 (by norm_num), ?_, ?_⟩
  · rw [hG]
    exact lt_irrefl (0 : ℝ)
  · rw [hV]
    exact lt_irrefl (0 : ℝ)

/-- C16, amended: in exact real arithmetic, for `S, K, T > 0` and `sigma > 0`,
the method `d1` takes the logarithm of a positive number,
`100 * Vega sigma = S^2 * sigma * T * Gamma sigma`, `Gamma sigma` and
`Vega sigma` are positive, and neither changes with `IsCall` (nor with the
observed price). -/
theorem Vega_Gamma_identity (b : BlackScholes ℝ)
    (hS : 0 < b.UnderlyingPrice) (hK : 0 < b.StrikePrice) (hT : 0 < b.TimeToMaturity)
    (sigma : ℝ) (hsigma : 0 < sigma) :
    0 < b.UnderlyingPrice / b.StrikePrice
      ∧ 100 * b.Vega realMath sigma
        = b.UnderlyingPrice ^ 2 * sigma * b.TimeToMaturity * b.Gamma realMath sigma
      ∧ 0 < b.Gamma realMath sigma
      ∧ 0 < b.Vega realMath sigma
      ∧ ∀ (P : ℝ) (c : Bool),
          BlackScholes.Gamma realMath
              ⟨P, b.UnderlyingPrice, b.StrikePrice, b.TimeToMaturity, b.RiskRate, b.Dividend, c⟩
              sigma = b.Gamma realMath sigma
            ∧ BlackScholes.Vega realMath
              ⟨P, b.UnderlyingPrice, b.StrikePrice, b.TimeToMaturity, b.RiskRate, b.Dividend, c⟩
              sigma = b.Vega realMath sigma := by
  obtain ⟨_, PD_pos, _⟩ := normal_law
  have Vega_real : ∀ (b : BlackScholes ℝ), ∀ (s : ℝ), 100 * b.Vega realMath s
        = b.UnderlyingPrice * Real.exp (-b.Dividend * b.TimeToMaturity)
            * Real.sqrt b.TimeToMaturity * PD realMath (b.d1 realMath s) := by
    intro b s
    simp only [BlackScholes.Vega]
    norm_num
    ring
  have Gamma_real : ∀ (b : BlackScholes ℝ), ∀ (s : ℝ), b.Gamma realMath s
        = PD realMath (b.d1 realMath s) * Real.exp (-b.Dividend * b.TimeToMaturity)
          / (b.UnderlyingPrice * s * Real.sqrt b.TimeToMaturity) :=
    fun b s => rfl
  have hP := PD_pos (b.d1 realMath sigma)
  have hw := Real.sqrt_pos.2 hT
  have he := Real.exp_pos (-b.Dividend * b.TimeToMaturity)
  have hww : Real.sqrt b.TimeToMaturity * Real.sqrt b.TimeToMaturity = b.TimeToMaturity :=
    Real.mul_self_sqrt hT.le
  refine ⟨div_pos hS hK, ?_, ?_, ?_, fun _ _ => ⟨rfl, rfl⟩⟩
  · rw [Vega_real, Gamma_real]
    field_simp
    linear_combination (b.UnderlyingPrice ^ 2 * Real.exp (-(b.Dividend * b.TimeToMaturity))
      * PD realMath (b.d1 realMath sigma) * sigma) * hww
  · rw [Gamma_real]
    positivity
  · have h100 : 0 < 100 * b.Vega realMath sigma := by
      rw [Vega_real]
      positivity
    linarith

/-- The identity of C16 on the contract of the tests at the implied
volatility the tests expect. -/
theorem Vega_Gamma_identity_witness :
    100 * fixture.Vega realMath 0.616449844803655
        = fixture.UnderlyingPrice ^ 2 * 0.616449844803655 * fixture.TimeToMaturity
          * fixture.Gamma realMath 0.616449844803655
      ∧ 0 < fixture.Gamma realMath 0.616449844803655
      ∧ 0 < fixture.Vega realMath 0.616449844803655 :=
  ⟨(Vega_Gamma_identity fixture (by norm_num [fixture]) (by norm_num [fixture])
      (by norm_num [fixture]) 0.616449844803655 (by norm_num)).2.1,
    (Vega_Gamma_identity fixture (by norm_num [fixture]) (by norm_num [fixture])
      (by norm_num [fixture]) 0.616449844803655 (by norm_num)).2.2.1,
    (Vega_Gamma_identity fixture (by norm_num [fixture]) (by norm_num [fixture])
      (by norm_num [fixture]) 0.616449844803655 (by norm_num)).2.2.2.1⟩

end Gouant
